import Mathlib

/-!
Verification development for `mysql_to_pgsql.py`, a MySQL→PostgreSQL dump
converter.  The converter is a fixed pipeline of regular-expression text
substitutions followed by a stateful line scan that defers foreign-key
constraints.  We embed the pipeline shallowly over `List Char`:

* each Python `re.sub` call becomes an executable leftmost-match scanner
  (`reSub` with a rule-specific matcher) that mirrors the semantics of the
  concrete pattern used in the source (greedy/lazy repetition, word
  boundaries, case-insensitivity, lookahead), specialised to that pattern;
* Python's `\w` is modelled as ASCII alphanumeric or underscore, `\s` as
  Python's six whitespace characters, `\d` as ASCII digits;
* the line scan of `convert_mysql_to_postgres` (lines 107–178) becomes an
  explicit state-passing recursion over the split lines.

All definitions are executable so that concrete runs can be settled by
`decide`/`rfl`.
-/

set_option maxRecDepth 20000

/-- Single-quote character (escaping it in literals is avoided on purpose). -/
def chSq : Char := Char.ofNat 39

/-- Backslash character. -/
def chBs : Char := Char.ofNat 92

/-- Backtick character. -/
def chBq : Char := Char.ofNat 96

/-- Newline character. -/
def chNl : Char := Char.ofNat 10

/-- Python `\s`: the six ASCII whitespace characters. -/
def isWs (c : Char) : Bool :=
  c == ' ' || c == Char.ofNat 9 || c == chNl || c == Char.ofNat 13 ||
  c == Char.ofNat 11 || c == Char.ofNat 12

/-- Python `\w`, modelled over ASCII: letters, digits or underscore. -/
def isWordCh (c : Char) : Bool := c.isAlphanum || c == '_'

/-- Python `\d`. -/
def isDigitCh (c : Char) : Bool := c.isDigit

/-- Case-insensitive equality of a text character with an
already-lowercased pattern character. -/
def chCI (c p : Char) : Bool := c.toLower == p

/-- Generic "the pattern is a prefix of the text" test, parameterised by the
character comparison.  `eqf text-char pattern-char`. -/
def preWith (eqf : Char → Char → Bool) : List Char → List Char → Bool
  | [], _ => true
  | _ :: _, [] => false
  | p :: ps, c :: cs => eqf c p && preWith eqf ps cs

/-- Case-insensitive prefix test against an already-lowercased pattern. -/
def ciPre (p s : List Char) : Bool := preWith chCI p s

/-- Case-sensitive prefix test. -/
def csPre (p s : List Char) : Bool := preWith (fun c p => c == p) p s

/-- Does `f` hold of some suffix of `s` (including `s` itself and `[]`)? -/
def anyTail (f : List Char → Bool) : List Char → Bool
  | [] => f []
  | c :: cs => f (c :: cs) || anyTail f cs

/-- Number of suffixes of `s` satisfying `f`. -/
def countTail (f : List Char → Bool) : List Char → Nat
  | [] => if f [] then 1 else 0
  | c :: cs => (if f (c :: cs) then 1 else 0) + countTail f cs

/-- Case-insensitive substring occurrence (pattern already lowercased). -/
def hasSubCI (p s : List Char) : Bool := anyTail (ciPre p) s

/-- Case-sensitive substring occurrence. -/
def hasSub (p s : List Char) : Bool := anyTail (csPre p) s

/-- Number of (possibly overlapping) case-sensitive occurrences of `p`. -/
def countSub (p s : List Char) : Nat := countTail (csPre p) s

/-! ### Parser pieces

A parser consumes a prefix of the input and returns `(consumed, rest)`.
These model the deterministic fragments of the concrete regexes used by the
source (each greedy/lazy repetition in those regexes is followed by a
character it can never match, so backtracking never changes the result and
a deterministic scanner is faithful). -/

/-- Parsers over character lists: `some (consumed, rest)` on success. -/
abbrev P := List Char → Option (List Char × List Char)

/-- Single character satisfying a predicate. -/
def pCh (f : Char → Bool) : P := fun s =>
  match s with
  | c :: cs => if f c then some ([c], cs) else none
  | [] => none

/-- Case-insensitive literal (pattern already lowercased); returns the
actual text characters consumed. -/
def pLitCI : List Char → P
  | [] => fun s => some ([], s)
  | p :: ps => fun s =>
    match s with
    | c :: cs =>
      if chCI c p then
        match pLitCI ps cs with
        | some (m, r) => some (c :: m, r)
        | none => none
      else none
    | [] => none

/-- Case-sensitive literal. -/
def pLitCS : List Char → P
  | [] => fun s => some ([], s)
  | p :: ps => fun s =>
    match s with
    | c :: cs =>
      if c == p then
        match pLitCS ps cs with
        | some (m, r) => some (c :: m, r)
        | none => none
      else none
    | [] => none

/-- Greedy `X*` over a character class. -/
def pMany0 (f : Char → Bool) : P := fun s => some (s.takeWhile f, s.dropWhile f)

/-- Greedy `X+` over a character class. -/
def pMany1 (f : Char → Bool) : P := fun s =>
  match s.takeWhile f with
  | [] => none
  | m => some (m, s.dropWhile f)

/-- Sequencing. -/
def pThen (a b : P) : P := fun s =>
  match a s with
  | some (m1, r1) =>
    match b r1 with
    | some (m2, r2) => some (m1 ++ m2, r2)
    | none => none
  | none => none

/-- Greedy `X?`. -/
def pOpt (a : P) : P := fun s =>
  match a s with
  | some v => some v
  | none => some ([], s)

/-- Ordered alternation (first match wins, as in Python alternation). -/
def pOr (a b : P) : P := fun s =>
  match a s with
  | some v => some v
  | none => b s

/-- Lazy scan up to and including a stop character (`.*?C`); `allowNl`
distinguishes DOTALL from plain mode. -/
def scanThru (stop : Char) (allowNl : Bool) : P
  | [] => none
  | c :: cs =>
    if c == stop then some ([c], cs)
    else if allowNl || !(c == chNl) then
      match scanThru stop allowNl cs with
      | some (m, r) => some (c :: m, r)
      | none => none
    else none

/-- Lazy scan up to and including the first `*/` (for `[\d\s]*.*?\*/` with
DOTALL: the net effect is "anything up to the first `*/`"). -/
def scanStarSlash : P
  | [] => none
  | c :: cs =>
    if c == '*' && csPre (['/']) cs then some (['*', '/'], cs.tail)
    else
      match scanStarSlash cs with
      | some (m, r) => some (c :: m, r)
      | none => none

/-- Lazy scan for `` `.*?` WRITE; `` (no DOTALL): consume non-newline
characters until a backtick immediately followed by `" WRITE;"`. -/
def scanLockTail : P
  | [] => none
  | c :: cs =>
    if c == chBq && csPre ((" WRITE;").data) cs then
      some (c :: (cs.take 7), cs.drop 7)
    else if !(c == chNl) then
      match scanLockTail cs with
      | some (m, r) => some (c :: m, r)
      | none => none
    else none

/-- Lazy scan for `".*?" <kw>` (no DOTALL, `<kw>` case-insensitive and
already lowercased): consume non-newline characters until a double quote
immediately followed by `kw`. -/
def scanQuoteKw (kw : List Char) : P
  | [] => none
  | c :: cs =>
    if c == '"' && ciPre kw cs then
      some (c :: (cs.take kw.length), cs.drop kw.length)
    else if !(c == chNl) then
      match scanQuoteKw kw cs with
      | some (m, r) => some (c :: m, r)
      | none => none
    else none

/-! ### The substitution engine

`reSub m s` mirrors Python `re.sub(pattern, repl, s)` for the specialised
matcher `m`: scan left to right, at each position try the matcher (which
receives the preceding original character for word-boundary checks); on a
match emit the replacement and continue after the matched text, otherwise
copy one character.  Recursion is fuelled by the input length so that the
kernel can evaluate it. -/

/-- A matcher: given the preceding original character (none at the start)
and the current suffix, return `(replacement, matched, rest)`. -/
abbrev Matcher := Option Char → List Char → Option (List Char × List Char × List Char)

/-- Build a matcher from a word-boundary-style guard on the preceding
character and a position-local core. -/
def mkMatcher (prevOk : Option Char → Bool)
    (core : List Char → Option (List Char × List Char × List Char)) : Matcher :=
  fun prev s => if prevOk prev then core s else none

/-- Guard for a leading `\b` before a word character: the preceding
character must be absent or a non-word character. -/
def noWordBefore : Option Char → Bool
  | none => true
  | some c => !isWordCh c

/-- The original character preceding the next scan position: the last
matched character if any, otherwise the previous one. -/
def prevAfter (prev : Option Char) (matched : List Char) : Option Char :=
  match matched.getLast? with
  | some c => some c
  | none => prev

def reSubFuel (m : Matcher) : Nat → Option Char → List Char → List Char
  | 0, _, s => s
  | _ + 1, _, [] => []
  | fuel + 1, prev, c :: cs =>
    match m prev (c :: cs) with
    | some (r, matched, rest) =>
      if rest.length < (c :: cs).length then
        r ++ reSubFuel m fuel (prevAfter prev matched) rest
      else c :: reSubFuel m fuel (some c) cs
    | none => c :: reSubFuel m fuel (some c) cs

/-- Python `re.sub` for matcher `m` over the whole text. -/
def reSub (m : Matcher) (s : List Char) : List Char :=
  reSubFuel m s.length none s

/-- Wrap a parser and a replacement function of the matched text into a
matcher core. -/
def coreOfP (p : P) (repl : List Char → List Char) :
    List Char → Option (List Char × List Char × List Char) := fun s =>
  match p s with
  | some (m, r) => some (repl m, m, r)
  | none => none

/-! ### The rewrite rules (source lines 16–103, in source order) -/

/-- Rule source line 17: `/\*![\d\s]*.*?\*/;?` (DOTALL) → `''`. -/
def coreVersioned : List Char → Option (List Char × List Char × List Char) :=
  coreOfP (pThen (pLitCS (("/*!").data)) (pThen scanStarSlash (pOpt (pCh (· == ';')))))
      (fun _ => [])

def mVersioned : Matcher := mkMatcher (fun _ => true) coreVersioned

/-- Rule source line 20: `SET @OLD_.*?;` → `''`. -/
def coreSetOld : List Char → Option (List Char × List Char × List Char) :=
  coreOfP (pThen (pLitCS (("SET @OLD_").data)) (scanThru ';' false)) (fun _ => [])

def mSetOld : Matcher := mkMatcher (fun _ => true) coreSetOld

/-- Rule source line 21: `SET @saved_.*?;` → `''`. -/
def coreSetSaved : List Char → Option (List Char × List Char × List Char) :=
  coreOfP (pThen (pLitCS (("SET @saved_").data)) (scanThru ';' false)) (fun _ => [])

def mSetSaved : Matcher := mkMatcher (fun _ => true) coreSetSaved

/-- Source lines 26–31, `fix_quotes_in_inserts`: replace every
backslash–single-quote pair by two single quotes. -/
def fix_quotes_in_inserts : List Char → List Char
  | [] => []
  | [c] => [c]
  | c :: d :: rest =>
    if c == chBs && d == chSq then chSq :: chSq :: fix_quotes_in_inserts rest
    else c :: fix_quotes_in_inserts (d :: rest)

/-- Rule source line 34: `INSERT INTO.*?;` (DOTALL) with
`fix_quotes_in_inserts` applied to the matched statement. -/
def coreInsert : List Char → Option (List Char × List Char × List Char) :=
  coreOfP (pThen (pLitCS (("INSERT INTO").data)) (scanThru ';' true))
      fix_quotes_in_inserts

def mInsert : Matcher := mkMatcher (fun _ => true) coreInsert

/-- Rule source line 37: ``LOCK TABLES `.*?` WRITE;`` → `''`. -/
def coreLock : List Char → Option (List Char × List Char × List Char) :=
  coreOfP (pThen (pLitCS (("LOCK TABLES ").data ++ [chBq])) scanLockTail) (fun _ => [])

def mLock : Matcher := mkMatcher (fun _ => true) coreLock

/-- Rule source line 38: `UNLOCK TABLES;` → `''`. -/
def coreUnlock : List Char → Option (List Char × List Char × List Char) :=
  coreOfP (pLitCS (("UNLOCK TABLES;").data)) (fun _ => [])

def mUnlock : Matcher := mkMatcher (fun _ => true) coreUnlock

/-- Source line 41: replace every backtick by a double quote. -/
def backtickToQuote (s : List Char) : List Char :=
  s.map (fun c => if c == chBq then '"' else c)

/-- Rule source line 44: `\s*ENGINE\s*=\s*\w+` (ci) → `''`. -/
def coreEngine : List Char → Option (List Char × List Char × List Char) :=
  coreOfP (pThen (pMany0 isWs) (pThen (pLitCI (("engine").data))
      (pThen (pMany0 isWs) (pThen (pCh (· == '=')) (pThen (pMany0 isWs) (pMany1 isWordCh))))))
      (fun _ => [])

def mEngine : Matcher := mkMatcher (fun _ => true) coreEngine

/-- Rule source line 47: `\s*DEFAULT CHARSET\s*=\s*\w+` (ci) → `''`. -/
def coreDefaultCharset : List Char → Option (List Char × List Char × List Char) :=
  coreOfP (pThen (pMany0 isWs) (pThen (pLitCI (("default charset").data))
      (pThen (pMany0 isWs) (pThen (pCh (· == '=')) (pThen (pMany0 isWs) (pMany1 isWordCh))))))
      (fun _ => [])

def mDefaultCharset : Matcher := mkMatcher (fun _ => true) coreDefaultCharset

/-- Rule source line 48: `\s*COLLATE\s*=\s*\w+` (ci) → `''`. -/
def coreCollateEq : List Char → Option (List Char × List Char × List Char) :=
  coreOfP (pThen (pMany0 isWs) (pThen (pLitCI (("collate").data))
      (pThen (pMany0 isWs) (pThen (pCh (· == '=')) (pThen (pMany0 isWs) (pMany1 isWordCh))))))
      (fun _ => [])

def mCollateEq : Matcher := mkMatcher (fun _ => true) coreCollateEq

/-- Rule source line 51: `\s+CHARACTER SET\s+\w+` (ci) → `''`. -/
def coreCharacterSet : List Char → Option (List Char × List Char × List Char) :=
  coreOfP (pThen (pMany1 isWs) (pThen (pLitCI (("character set").data))
      (pThen (pMany1 isWs) (pMany1 isWordCh)))) (fun _ => [])

def mCharacterSet : Matcher := mkMatcher (fun _ => true) coreCharacterSet

/-- Rule source line 52: `\s+COLLATE\s+\w+` (ci) → `''`. -/
def coreCollateWs : List Char → Option (List Char × List Char × List Char) :=
  coreOfP (pThen (pMany1 isWs) (pThen (pLitCI (("collate").data))
      (pThen (pMany1 isWs) (pMany1 isWordCh)))) (fun _ => [])

def mCollateWs : Matcher := mkMatcher (fun _ => true) coreCollateWs

/-- Rule source line 56: `\s*AUTO_INCREMENT\s*=\s*\d+` (ci) → `''`. -/
def coreAutoIncEq : List Char → Option (List Char × List Char × List Char) :=
  coreOfP (pThen (pMany0 isWs) (pThen (pLitCI (("auto_increment").data))
      (pThen (pMany0 isWs) (pThen (pCh (· == '=')) (pThen (pMany0 isWs) (pMany1 isDigitCh))))))
      (fun _ => [])

def mAutoIncEq : Matcher := mkMatcher (fun _ => true) coreAutoIncEq

/-- The ordered type alternation `(int|bigint|smallint)` of source line 61
(first letters differ, so commitment is faithful). -/
def pIntTypes : P :=
  pOr (pLitCI (("int").data)) (pOr (pLitCI (("bigint").data)) (pLitCI (("smallint").data)))

/-- Rule source lines 60–65:
`("?\w+"?)\s+(int|bigint|smallint)\s+NOT\s+NULL\s+AUTO_INCREMENT` (ci)
→ `\1 SERIAL`. -/
def coreSerial : List Char → Option (List Char × List Char × List Char) :=
  fun s =>
    match pOpt (pCh (· == '"')) s with
    | none => none
    | some (q1, r1) =>
      match pMany1 isWordCh r1 with
      | none => none
      | some (w, r2) =>
        match pOpt (pCh (· == '"')) r2 with
        | none => none
        | some (q2, r3) =>
          match pMany1 isWs r3 with
          | none => none
          | some (ws1, r4) =>
            match pIntTypes r4 with
            | none => none
            | some (ty, r5) =>
              match pThen (pMany1 isWs) (pThen (pLitCI (("not").data))
                  (pThen (pMany1 isWs) (pThen (pLitCI (("null").data))
                  (pThen (pMany1 isWs) (pLitCI (("auto_increment").data)))))) r5 with
              | none => none
              | some (tl, r6) =>
                let g1 := q1 ++ w ++ q2
                some (g1 ++ (" SERIAL").data, g1 ++ ws1 ++ ty ++ tl, r6)

def mSerial : Matcher := mkMatcher (fun _ => true) coreSerial

/-- The negative lookahead `(?!\s+SERIAL)` of source line 68. -/
def looksLikeSerial (r : List Char) : Bool :=
  match pMany1 isWs r with
  | some (_, r2) => ciPre (("serial").data) r2
  | none => false

/-- Boundary check after a match ending in a word character. -/
def noWordAfter (r : List Char) : Bool :=
  match r with
  | [] => true
  | c :: _ => !isWordCh c

/-- Rule source line 68: `\b(int)\b(?!\s+SERIAL)` (ci) → `INTEGER`. -/
def coreInt : List Char → Option (List Char × List Char × List Char) :=
  fun s =>
    match pLitCI (("int").data) s with
    | some (m, r) =>
      if noWordAfter r && !looksLikeSerial r then some ((("INTEGER").data), m, r) else none
    | none => none

def mInt : Matcher := mkMatcher noWordBefore coreInt

/-- Rule source line 71: `\bdouble\b` (ci) → `DOUBLE PRECISION`. -/
def coreDouble : List Char → Option (List Char × List Char × List Char) :=
  fun s =>
    match pLitCI (("double").data) s with
    | some (m, r) => if noWordAfter r then some ((("DOUBLE PRECISION").data), m, r) else none
    | none => none

def mDouble : Matcher := mkMatcher noWordBefore coreDouble

/-- Rule source line 77: `tinyint\(1\)` (ci) → `BOOLEAN`. -/
def coreTinyint1 : List Char → Option (List Char × List Char × List Char) :=
  coreOfP (pLitCI (("tinyint(1)").data)) (fun _ => ("BOOLEAN").data)

def mTinyint1 : Matcher := mkMatcher (fun _ => true) coreTinyint1

/-- Rule source line 80: `tinyint(\(\d+\))?` (ci) → `SMALLINT`. -/
def coreTinyint : List Char → Option (List Char × List Char × List Char) :=
  coreOfP (pThen (pLitCI (("tinyint").data))
      (pOpt (pThen (pCh (· == '(')) (pThen (pMany1 isDigitCh) (pCh (· == ')'))))))
      (fun _ => ("SMALLINT").data)

def mTinyint : Matcher := mkMatcher (fun _ => true) coreTinyint

/-- Rule source line 83: `\bdatetime\b` (ci) → `TIMESTAMP`. -/
def coreDatetime : List Char → Option (List Char × List Char × List Char) :=
  fun s =>
    match pLitCI (("datetime").data) s with
    | some (m, r) => if noWordAfter r then some ((("TIMESTAMP").data), m, r) else none
    | none => none

def mDatetime : Matcher := mkMatcher noWordBefore coreDatetime

/-- Rule source line 86: `\bvarchar\b` (ci) → `VARCHAR`. -/
def coreVarchar : List Char → Option (List Char × List Char × List Char) :=
  fun s =>
    match pLitCI (("varchar").data) s with
    | some (m, r) => if noWordAfter r then some ((("VARCHAR").data), m, r) else none
    | none => none

def mVarchar : Matcher := mkMatcher noWordBefore coreVarchar

/-- Rule source line 89: `\blongtext\b` (ci) → `TEXT`. -/
def coreLongtext : List Char → Option (List Char × List Char × List Char) :=
  fun s =>
    match pLitCI (("longtext").data) s with
    | some (m, r) => if noWordAfter r then some ((("TEXT").data), m, r) else none
    | none => none

def mLongtext : Matcher := mkMatcher noWordBefore coreLongtext

/-- Rule source line 90: `\bmediumtext\b` (ci) → `TEXT`. -/
def coreMediumtext : List Char → Option (List Char × List Char × List Char) :=
  fun s =>
    match pLitCI (("mediumtext").data) s with
    | some (m, r) => if noWordAfter r then some ((("TEXT").data), m, r) else none
    | none => none

def mMediumtext : Matcher := mkMatcher noWordBefore coreMediumtext

/-- Rule source lines 95–100:
`(TIMESTAMP\s+NOT\s+NULL\s+DEFAULT\s+CURRENT_TIMESTAMP)\s+ON\s+UPDATE\s+CURRENT_TIMESTAMP`
(ci) → `\1`. -/
def coreOnUpdate : List Char → Option (List Char × List Char × List Char) :=
  fun s =>
    match pThen (pLitCI (("timestamp").data)) (pThen (pMany1 isWs)
        (pThen (pLitCI (("not").data)) (pThen (pMany1 isWs)
        (pThen (pLitCI (("null").data)) (pThen (pMany1 isWs)
        (pThen (pLitCI (("default").data)) (pThen (pMany1 isWs)
        (pLitCI (("current_timestamp").data))))))))) s with
    | none => none
    | some (g1, r1) =>
      match pThen (pMany1 isWs) (pThen (pLitCI (("on").data)) (pThen (pMany1 isWs)
          (pThen (pLitCI (("update").data)) (pThen (pMany1 isWs)
          (pLitCI (("current_timestamp").data)))))) r1 with
      | none => none
      | some (tl, r2) => some (g1, g1 ++ tl, r2)

def mOnUpdate : Matcher := mkMatcher (fun _ => true) coreOnUpdate

/-- Rule source line 103: `\bCURRENT_TIMESTAMP\b` (ci) → `NOW()`. -/
def coreNow : List Char → Option (List Char × List Char × List Char) :=
  fun s =>
    match pLitCI (("current_timestamp").data) s with
    | some (m, r) => if noWordAfter r then some ((("NOW()").data), m, r) else none
    | none => none

def mNow : Matcher := mkMatcher noWordBefore coreNow

/-- The stateless rewrite stage: source lines 16–103 in order. -/
def rewriteStage (content : List Char) : List Char :=
  let s := reSub mVersioned content
  let s := reSub mSetOld s
  let s := reSub mSetSaved s
  let s := reSub mInsert s
  let s := reSub mLock s
  let s := reSub mUnlock s
  let s := backtickToQuote s
  let s := reSub mEngine s
  let s := reSub mDefaultCharset s
  let s := reSub mCollateEq s
  let s := reSub mCharacterSet s
  let s := reSub mCollateWs s
  let s := reSub mAutoIncEq s
  let s := reSub mSerial s
  let s := reSub mInt s
  let s := reSub mDouble s
  let s := reSub mTinyint1 s
  let s := reSub mTinyint s
  let s := reSub mDatetime s
  let s := reSub mVarchar s
  let s := reSub mLongtext s
  let s := reSub mMediumtext s
  let s := reSub mOnUpdate s
  reSub mNow s

/-! ### The constraint-deferral pass (source lines 105–178) -/

/-- Python `content.split(chr(10))`. -/
def splitNl : List Char → List (List Char)
  | [] => [[]]
  | c :: cs =>
    match splitNl cs with
    | [] => [[c]]
    | l :: ls => if c == chNl then [] :: l :: ls else (c :: l) :: ls

/-- Python `(chr(10)).join(lines)`. -/
def joinNl : List (List Char) → List Char
  | [] => []
  | [l] => l
  | l :: ls => l ++ chNl :: joinNl ls

/-- Leftmost `re.search`: try a positional parser at every suffix. -/
def firstSome (f : List Char → Option α) : List Char → Option α
  | [] => none
  | c :: cs =>
    match f (c :: cs) with
    | some a => some a
    | none => firstSome f cs

/-- Positional parse of `CREATE TABLE\s+"([^"]+)"` (ci); returns group 1. -/
def createNameAt (s : List Char) : Option (List Char) :=
  match pLitCI (("create table").data) s with
  | none => none
  | some (_, r1) =>
    match pMany1 isWs r1 with
    | none => none
    | some (_, r2) =>
      match pCh (· == '"') r2 with
      | none => none
      | some (_, r3) =>
        match pMany1 (fun c => !(c == '"')) r3 with
        | none => none
        | some (g1, r4) =>
          match pCh (· == '"') r4 with
          | none => none
          | some _ => some g1

/-- Source line 118: extract the table name from a `CREATE TABLE` line. -/
def searchCreateName (line : List Char) : Option (List Char) :=
  firstSome createNameAt line

/-- Positional parse of `CONSTRAINT\s+"[^"]+"\s+FOREIGN KEY` (ci). -/
def fkCheckAt (s : List Char) : Option Unit :=
  match pThen (pLitCI (("constraint").data)) (pThen (pMany1 isWs)
      (pThen (pCh (· == '"')) (pThen (pMany1 (fun c => !(c == '"')))
      (pThen (pCh (· == '"')) (pThen (pMany1 isWs) (pLitCI (("foreign key").data))))))) s with
  | some _ => some ()
  | none => none

/-- Source line 123: does the line contain a foreign-key constraint clause? -/
def fkCheck (line : List Char) : Bool := (firstSome fkCheckAt line).isSome

/-- The five capture groups of the full foreign-key regex of source
lines 125–129. -/
structure FkGroups where
  cname : List Char
  cols : List Char
  refTable : List Char
  refCols : List Char
  actions : List Char

/-- Positional parse of
`CONSTRAINT\s+"([^"]+)"\s+FOREIGN KEY\s+\(([^)]+)\)\s+REFERENCES\s+"([^"]+)"\s+\(([^)]+)\)(.+)`
(ci). -/
def fkAt (s : List Char) : Option FkGroups :=
  match pLitCI (("constraint").data) s with
  | none => none
  | some (_, r1) =>
    match pMany1 isWs r1 with
    | none => none
    | some (_, r2) =>
      match pCh (· == '"') r2 with
      | none => none
      | some (_, r3) =>
        match pMany1 (fun c => !(c == '"')) r3 with
        | none => none
        | some (g1, r4) =>
          match pThen (pCh (· == '"')) (pThen (pMany1 isWs)
              (pThen (pLitCI (("foreign key").data)) (pThen (pMany1 isWs) (pCh (· == '('))))) r4 with
          | none => none
          | some (_, r5) =>
            match pMany1 (fun c => !(c == ')')) r5 with
            | none => none
            | some (g2, r6) =>
              match pThen (pCh (· == ')')) (pThen (pMany1 isWs)
                  (pThen (pLitCI (("references").data)) (pThen (pMany1 isWs) (pCh (· == '"'))))) r6 with
              | none => none
              | some (_, r7) =>
                match pMany1 (fun c => !(c == '"')) r7 with
                | none => none
                | some (g3, r8) =>
                  match pThen (pCh (· == '"')) (pThen (pMany1 isWs) (pCh (· == '('))) r8 with
                  | none => none
                  | some (_, r9) =>
                    match pMany1 (fun c => !(c == ')')) r9 with
                    | none => none
                    | some (g4, r10) =>
                      match pCh (· == ')') r10 with
                      | none => none
                      | some (_, r11) =>
                        match pMany1 (fun c => !(c == chNl)) r11 with
                        | none => none
                        | some (g5, _) => some ⟨g1, g2, g3, g4, g5⟩

/-- Source line 125: leftmost full foreign-key parse. -/
def fkParse (line : List Char) : Option FkGroups := firstSome fkAt line

/-- Python `rstrip(',')`. -/
def dropTrailingCommas (s : List Char) : List Char :=
  (s.reverse.dropWhile (· == ',')).reverse

/-- Python `strip()`. -/
def stripWs (s : List Char) : List Char :=
  ((s.dropWhile isWs).reverse.dropWhile isWs).reverse

/-- Source line 149: `re.match(r'\s*KEY\s+"', line)` (ci, anchored). -/
def keyLineMatch (line : List Char) : Bool :=
  (pThen (pMany0 isWs) (pThen (pLitCI (("key").data))
    (pThen (pMany1 isWs) (pCh (· == '"')))) line).isSome

/-- A deferred foreign-key record (source lines 137–144). -/
structure FK where
  table : List Char
  cname : List Char
  cols : List Char
  refTable : List Char
  refCols : List Char
  actions : List Char

/-- One iteration of the scan loop (source lines 113–158); returns the
updated context, whether the line is emitted, and a new record if any. -/
def scanLineStep (inC : Bool) (cur : Option (List Char)) (line : List Char) :
    Bool × Option (List Char) × Bool × Option FK :=
  let hasCT := hasSubCI (("create table").data) line
  let inC1 := if hasCT then true else inC
  let cur1 :=
    if hasCT then
      match searchCreateName line with
      | some n => some n
      | none => cur
    else cur
  if inC1 && fkCheck line then
    (inC1, cur1, false,
      match fkParse line, cur1 with
      | some g, some t =>
        some ⟨t, g.cname, g.cols, g.refTable, g.refCols,
          stripWs (dropTrailingCommas g.actions)⟩
      | _, _ => none)
  else if inC1 && keyLineMatch line then (inC1, cur1, false, none)
  else if inC1 && line.contains ')' && line.contains ';' then (false, none, true, none)
  else (inC1, cur1, true, none)

/-- The full scan over the line list. -/
def scanLines (inC : Bool) (cur : Option (List Char)) :
    List (List Char) → List (List Char) × List FK
  | [] => ([], [])
  | l :: ls =>
    let st := scanLineStep inC cur l
    let rest := scanLines st.1 st.2.1 ls
    ((if st.2.2.1 then l :: rest.1 else rest.1),
     (match st.2.2.2 with
      | some fk => fk :: rest.2
      | none => rest.2))

/-- Rule source line 163: `,(\s*\n\s*\);)` → `\1`: a comma followed by a
whitespace run containing a newline and then `);` loses the comma. -/
def coreTrailingComma : List Char → Option (List Char × List Char × List Char) :=
  (fun s =>
    match s with
    | c :: rest =>
      if c == ',' then
        let w := rest.takeWhile isWs
        if w.contains chNl && csPre ((")" ++ ";").data) (rest.dropWhile isWs) then
          some (w ++ (")" ++ ";").data, c :: w ++ (")" ++ ";").data,
            (rest.dropWhile isWs).drop 2)
        else none
      else none
    | [] => none)

def mTrailingComma : Matcher := mkMatcher (fun _ => true) coreTrailingComma

/-- The trailing add-constraint statement for one record (source line 169). -/
def fkStmt (fk : FK) : List Char :=
  ("ALTER TABLE \"").data ++ fk.table ++ ("\" ADD CONSTRAINT \"").data ++ fk.cname ++
  ("\" FOREIGN KEY (").data ++ fk.cols ++ (") REFERENCES \"").data ++ fk.refTable ++
  ("\" (").data ++ fk.refCols ++ (") ").data ++ fk.actions ++ [';']

/-- The label element that opens the trailing block (source line 167). -/
def fkBlockLabel : List Char :=
  [chNl, chNl] ++
  ("-- Foreign key constraints (added after table creation to avoid dependency issues)").data
  ++ [chNl]

/-- Source lines 166–171: append the deferred constraints when any exist. -/
def appendForeignKeys (content : List Char) (fks : List FK) : List Char :=
  match fks with
  | [] => content
  | _ => content ++ joinNl (fkBlockLabel :: fks.map fkStmt)

/-- Rule source line 174: `ALTER TABLE ".*?" DISABLE KEYS;?` (ci) → `''`. -/
def coreDisableKeys : List Char → Option (List Char × List Char × List Char) :=
  coreOfP (pThen (pLitCI ((("alter table ").data) ++ ['"']))
      (pThen (scanQuoteKw ((" disable keys").data)) (pOpt (pCh (· == ';')))))
      (fun _ => [])

def mDisableKeys : Matcher := mkMatcher (fun _ => true) coreDisableKeys

/-- Rule source line 175: `ALTER TABLE ".*?" ENABLE KEYS;?` (ci) → `''`. -/
def coreEnableKeys : List Char → Option (List Char × List Char × List Char) :=
  coreOfP (pThen (pLitCI ((("alter table ").data) ++ ['"']))
      (pThen (scanQuoteKw ((" enable keys").data)) (pOpt (pCh (· == ';')))))
      (fun _ => [])

def mEnableKeys : Matcher := mkMatcher (fun _ => true) coreEnableKeys

/-- Rule source line 178: `\n\s*\n\s*\n+` → `\n\n`.  The pattern fires on a
whitespace run that starts with a newline and contains at least three
newlines; the match extends to the last newline of the run. -/
def coreBlankLines : List Char → Option (List Char × List Char × List Char) :=
  fun s =>
    match s with
    | c :: rest =>
      if c == chNl then
        let run := c :: rest.takeWhile isWs
        let matched := (run.reverse.dropWhile (fun d => !(d == chNl))).reverse
        if 3 ≤ (matched.filter (· == chNl)).length then
          some ([chNl, chNl], matched, s.drop matched.length)
        else none
      else none
    | [] => none

def mBlankLines : Matcher := mkMatcher (fun _ => true) coreBlankLines

/-- The constraint-deferral pass: source lines 107–178 (line scan, dangling
comma cleanup, trailing constraint block, DISABLE/ENABLE KEYS removal,
blank-line collapsing). -/
def deferralPass (content : List Char) : List Char :=
  let scanned := scanLines false none (splitNl content)
  let s := joinNl scanned.1
  let s := reSub mTrailingComma s
  let s := appendForeignKeys s scanned.2
  let s := reSub mDisableKeys s
  let s := reSub mEnableKeys s
  reSub mBlankLines s

/-- The whole conversion applied to the dump text (`convert_mysql_to_postgres`
without the file I/O and the fixed output header). -/
def convert_mysql_to_postgres (content : List Char) : List Char :=
  deferralPass (rewriteStage content)

/-- The fixed PostgreSQL preamble of source lines 181–194, parameterised by
the input file name spliced into the comment. -/
def postgresHeader (inputFile : List Char) : List Char :=
  ("-- Converted from MySQL to PostgreSQL\n-- Compatible with Supabase\n-- Original MySQL dump: ").data
  ++ inputFile ++
  ("\n\nSET statement_timeout = 0;\nSET lock_timeout = 0;\nSET client_encoding = 'UTF8';\nSET standard_conforming_strings = on;\nSET check_function_bodies = false;\nSET client_min_messages = warning;\n\n").data

/-- The full output text written by the converter. -/
def convertFile (inputFile content : List Char) : List Char :=
  postgresHeader inputFile ++ convert_mysql_to_postgres content

/-! ### Concrete inputs and rule groups used by the claims -/

/-- The claim C1 scenario input (one line). -/
def c1input : List Char :=
  ("CREATE TABLE `t` (`id` int NOT NULL AUTO_INCREMENT, CONSTRAINT `fk1` FOREIGN KEY (`a`) REFERENCES `u` (`id`) ON DELETE CASCADE);").data

/-- What the converter actually produces for `c1input` (no table
definition: the single line is dropped whole because the foreign-key
clause sits on the `CREATE TABLE` line; the deferred statement keeps the
quoted column lists and the stray tail of the original line). -/
def c1output : List Char :=
  ("\n\n-- Foreign key constraints (added after table creation to avoid dependency issues)\n\nALTER TABLE \"t\" ADD CONSTRAINT \"fk1\" FOREIGN KEY (\"a\") REFERENCES \"u\" (\"id\") ON DELETE CASCADE);;").data

/-- The trailing statement claim C1 expects. -/
def c1claimedAlter : List Char :=
  ("ALTER TABLE \"t\" ADD CONSTRAINT \"fk1\" FOREIGN KEY (a) REFERENCES \"u\" (id) ON DELETE CASCADE;").data

/-- Claim C3 counterexample input: no foreign-key clause, no key line, no
blank line, yet the deferral pass erases it. -/
def c3input : List Char := ("ALTER TABLE \"x\" DISABLE KEYS;").data

/-- Claim C5 counterexample input: a table with a unique-key line and a
plain key line. -/
def c5input : List Char :=
  ("CREATE TABLE \"t\" (\n  \"a\" INTEGER,\n  UNIQUE KEY \"u\" (\"a\"),\n  KEY \"i\" (\"a\")\n);").data

/-- Claim C6 counterexample input: exactly two consecutive blank lines. -/
def c6input : List Char := ("a\n\n\nb").data

/-- The boolean/small-integer/text/timestamp normalization rules of source
lines 77–90, in source order. -/
def typeNormRules (s : List Char) : List Char :=
  reSub mMediumtext (reSub mLongtext (reSub mVarchar (reSub mDatetime
    (reSub mTinyint (reSub mTinyint1 s)))))

/-- Claim C9 counterexample input: overlapping `tinyint` occurrences. -/
def c9input : List Char := ("tinyintinyint").data

/-- A concrete deferred-constraint record used in witnesses. -/
def fkExample : FK :=
  ⟨("t").data, ("fk1").data, ("\"a\"").data, ("u").data, ("\"id\"").data,
    ("ON DELETE CASCADE").data⟩

/-- A rendered autoincrement column declaration: a backquoted name followed by
an integer type and the ` NOT NULL AUTO_INCREMENT` modifier (the C2 input
family). -/
def renderAutoCol (name ty : List Char) : List Char :=
  chBq :: (name ++ chBq :: ' ' :: (ty ++ (" NOT NULL AUTO_INCREMENT").data))

/-- The converted form of such a declaration: the double-quoted name followed
by ` SERIAL`. -/
def serialResult (name : List Char) : List Char :=
  '"' :: (name ++ '"' :: (" SERIAL").data)

/-- The rewrite patterns that a C2 column name must avoid as case-insensitive
substrings so that no rule fires inside the name itself. -/
def c2Forbidden : List (List Char) :=
  [("int").data, ("serial").data, ("auto_increment").data, ("double").data,
   ("datetime").data, ("varchar").data, ("longtext").data, ("mediumtext").data,
   ("timestamp").data]

/-! ### Parser inversion and soundness lemmas -/

theorem pCh_some {f : Char → Bool} {s m r} (h : pCh f s = some (m, r)) :
    ∃ c, s = c :: r ∧ f c = true ∧ m = [c] := by
  cases s with
  | nil => simp [pCh] at h
  | cons c cs =>
    by_cases hc : f c
    · simp [pCh, hc] at h
      exact ⟨c, by rw [h.2], hc, by rw [← h.1]⟩
    · simp [pCh, hc] at h

theorem pLitCI_some {p s m r} (h : pLitCI p s = some (m, r)) :
    ciPre p s = true ∧ m = s.take p.length ∧ r = s.drop p.length := by
  induction p generalizing s m r with
  | nil =>
    simp [pLitCI] at h
    obtain ⟨h1, h2⟩ := h
    subst h1
    subst h2
    simp [ciPre, preWith]
  | cons q qs ih =>
    cases s with
    | nil => simp [pLitCI] at h
    | cons c cs =>
      by_cases hc : chCI c q
      · simp only [pLitCI, hc, if_pos] at h
        cases hr : pLitCI qs cs with
        | none => rw [hr] at h; simp at h
        | some v =>
          obtain ⟨m', r'⟩ := v
          rw [hr] at h
          simp at h
          obtain ⟨hm, hrr⟩ := h
          obtain ⟨h1, h2, h3⟩ := ih hr
          refine ⟨?_, ?_, ?_⟩
          · simp [ciPre, preWith, hc]
            simpa [ciPre] using h1
          · simp only [List.length_cons, List.take_succ_cons, ← hm, h2]
          · simp only [List.length_cons, List.drop_succ_cons, ← hrr, h3]
      · simp [pLitCI, hc] at h

theorem pLitCS_some {p s m r} (h : pLitCS p s = some (m, r)) :
    csPre p s = true ∧ m = s.take p.length ∧ r = s.drop p.length := by
  induction p generalizing s m r with
  | nil =>
    simp [pLitCS] at h
    obtain ⟨h1, h2⟩ := h
    subst h1
    subst h2
    simp [csPre, preWith]
  | cons q qs ih =>
    cases s with
    | nil => simp [pLitCS] at h
    | cons c cs =>
      by_cases hc : c == q
      · simp only [pLitCS, hc, if_pos] at h
        cases hr : pLitCS qs cs with
        | none => rw [hr] at h; simp at h
        | some v =>
          obtain ⟨m', r'⟩ := v
          rw [hr] at h
          simp at h
          obtain ⟨hm, hrr⟩ := h
          obtain ⟨h1, h2, h3⟩ := ih hr
          refine ⟨?_, ?_, ?_⟩
          · simp [csPre, preWith, hc]
            simpa [csPre] using h1
          · simp only [List.length_cons, List.take_succ_cons, ← hm, h2]
          · simp only [List.length_cons, List.drop_succ_cons, ← hrr, h3]
      · simp [pLitCS, hc] at h

theorem pMany0_some {f s m r} (h : pMany0 f s = some (m, r)) :
    m = s.takeWhile f ∧ r = s.dropWhile f := by
  simp [pMany0] at h
  exact ⟨h.1.symm, h.2.symm⟩

theorem pMany1_some {f s m r} (h : pMany1 f s = some (m, r)) :
    m = s.takeWhile f ∧ r = s.dropWhile f ∧ m ≠ [] := by
  unfold pMany1 at h
  cases ht : s.takeWhile f with
  | nil => rw [ht] at h; simp at h
  | cons c cs =>
    rw [ht] at h
    simp at h
    obtain ⟨h1, h2⟩ := h
    refine ⟨h1.symm, h2.symm, ?_⟩
    rw [← h1]
    simp

theorem pThen_some {a b : P} {s m r} (h : pThen a b s = some (m, r)) :
    ∃ m1 r1 m2, a s = some (m1, r1) ∧ b r1 = some (m2, r) ∧ m = m1 ++ m2 := by
  unfold pThen at h
  cases ha : a s with
  | none => rw [ha] at h; simp at h
  | some v =>
    obtain ⟨m1, r1⟩ := v
    rw [ha] at h
    dsimp only at h
    cases hb : b r1 with
    | none => rw [hb] at h; simp at h
    | some w =>
      obtain ⟨m2, r2⟩ := w
      rw [hb] at h
      simp at h
      exact ⟨m1, r1, m2, rfl, by rw [hb, h.2], h.1.symm⟩

theorem pOpt_some {a : P} {s m r} (h : pOpt a s = some (m, r)) :
    a s = some (m, r) ∨ (m = [] ∧ r = s) := by
  unfold pOpt at h
  cases ha : a s with
  | none =>
    rw [ha] at h
    simp at h
    exact Or.inr ⟨h.1, h.2.symm⟩
  | some v =>
    rw [ha] at h
    dsimp only at h
    exact Or.inl h

theorem pOr_some {a b : P} {s v} (h : pOr a b s = some v) :
    a s = some v ∨ (a s = none ∧ b s = some v) := by
  unfold pOr at h
  cases ha : a s with
  | none => rw [ha] at h; exact Or.inr ⟨rfl, h⟩
  | some w =>
    rw [ha] at h
    dsimp only at h
    exact Or.inl h

/-- Soundness: a parser's output splits its input. -/
def PSound (p : P) : Prop := ∀ s m r, p s = some (m, r) → s = m ++ r

theorem pCh_sound {f} : PSound (pCh f) := by
  intro s m r h
  obtain ⟨c, rfl, _, rfl⟩ := pCh_some h
  rfl

theorem pLitCI_sound {p} : PSound (pLitCI p) := by
  intro s m r h
  obtain ⟨_, h2, h3⟩ := pLitCI_some h
  rw [h2, h3, List.take_append_drop]

theorem pLitCS_sound {p} : PSound (pLitCS p) := by
  intro s m r h
  obtain ⟨_, h2, h3⟩ := pLitCS_some h
  rw [h2, h3, List.take_append_drop]

theorem pMany0_sound {f} : PSound (pMany0 f) := by
  intro s m r h
  obtain ⟨h1, h2⟩ := pMany0_some h
  rw [h1, h2, List.takeWhile_append_dropWhile]

theorem pMany1_sound {f} : PSound (pMany1 f) := by
  intro s m r h
  obtain ⟨h1, h2, _⟩ := pMany1_some h
  rw [h1, h2, List.takeWhile_append_dropWhile]

theorem pThen_sound {a b : P} (ha : PSound a) (hb : PSound b) : PSound (pThen a b) := by
  intro s m r h
  obtain ⟨m1, r1, m2, h1, h2, rfl⟩ := pThen_some h
  rw [ha _ _ _ h1, hb _ _ _ h2, List.append_assoc]

theorem pOpt_sound {a : P} (ha : PSound a) : PSound (pOpt a) := by
  intro s m r h
  rcases pOpt_some h with h' | ⟨rfl, rfl⟩
  · exact ha _ _ _ h'
  · rfl

theorem pOr_sound {a b : P} (ha : PSound a) (hb : PSound b) : PSound (pOr a b) := by
  intro s m r h
  rcases pOr_some h with h' | ⟨_, h'⟩
  · exact ha _ _ _ h'
  · exact hb _ _ _ h'

theorem scanThru_sound {stop allowNl} : PSound (scanThru stop allowNl) := by
  intro s
  induction s with
  | nil => intro m r h; simp [scanThru] at h
  | cons c cs ih =>
    intro m r h
    unfold scanThru at h
    by_cases hc : c == stop
    · simp [hc] at h
      rw [← h.1, ← h.2]; rfl
    · simp only [hc, if_false] at h
      by_cases hnl : (allowNl || !(c == chNl)) = true
      · rw [if_pos hnl] at h
        cases hrec : scanThru stop allowNl cs with
        | none => rw [hrec] at h; simp at h
        | some v =>
          obtain ⟨m', r'⟩ := v
          rw [hrec] at h
          simp at h
          rw [← h.1, ← h.2]
          simpa using congrArg (c :: ·) (ih _ _ hrec)
      · rw [if_neg hnl] at h; simp at h

/-! ### Generic lemmas about the substitution engine -/

theorem prevAfter_nil (p : Option Char) : prevAfter p [] = p := rfl

theorem prevAfter_cons (p : Option Char) (c : Char) (pre : List Char) :
    prevAfter p (c :: pre) = prevAfter (some c) pre := by
  cases pre with
  | nil => rfl
  | cons d ds =>
    simp only [prevAfter, List.getLast?_cons_cons]
    cases hg : (d :: ds).getLast? with
    | none =>
      exfalso
      rw [List.getLast?_eq_none_iff] at hg
      exact List.cons_ne_nil d ds hg
    | some x => rfl

theorem reSubFuel_nil (m : Matcher) (f : Nat) (prev : Option Char) :
    reSubFuel m f prev [] = [] := by
  cases f <;> rfl

/-- Step equation: no match at the head copies one character. -/
theorem reSubFuel_none (m : Matcher) {prev : Option Char} {c : Char} {cs : List Char} (f : Nat)
    (h : m prev (c :: cs) = none) :
    reSubFuel m (f + 1) prev (c :: cs) = c :: reSubFuel m f (some c) cs := by
  conv_lhs => unfold reSubFuel
  rw [h]

/-- Step equation: a match at the head emits the replacement and continues
after the matched text. -/
theorem reSubFuel_some (m : Matcher) {prev : Option Char} {c : Char} {cs r matched rest : List Char}
    (f : Nat) (h : m prev (c :: cs) = some (r, matched, rest))
    (hlt : rest.length < (c :: cs).length) :
    reSubFuel m (f + 1) prev (c :: cs)
      = r ++ reSubFuel m f (prevAfter prev matched) rest := by
  conv_lhs => unfold reSubFuel
  rw [h]
  simp only [List.length_cons] at hlt
  simp [hlt]

/-- If no position of `s` (with its actual preceding character) matches,
the scan copies `s` unchanged. -/
theorem reSubFuel_id (m : Matcher) :
    ∀ (s : List Char) (f : Nat) (prev : Option Char),
      (∀ pre suf, pre ++ suf = s → suf ≠ [] → m (prevAfter prev pre) suf = none) →
      reSubFuel m f prev s = s := by
  intro s
  induction s with
  | nil => intro f prev _; exact reSubFuel_nil m f prev
  | cons c cs ih =>
    intro f prev h
    cases f with
    | zero => rfl
    | succ k =>
      have h0 : m prev (c :: cs) = none := by
        have := h [] (c :: cs) rfl (by simp)
        simpa [prevAfter_nil] using this
      rw [reSubFuel_none m k h0]
      congr 1
      apply ih
      intro pre suf hps hne
      have := h (c :: pre) suf (by rw [← hps]; rfl) hne
      rwa [prevAfter_cons] at this

/-- Fuel does not matter once it covers the input length. -/
theorem reSubFuel_congr (m : Matcher) :
    ∀ (f : Nat) (s : List Char) (g : Nat) (prev : Option Char),
      s.length ≤ f → s.length ≤ g →
      reSubFuel m f prev s = reSubFuel m g prev s := by
  intro f
  induction f with
  | zero =>
    intro s g prev hf _
    have : s = [] := List.length_eq_zero.mp (Nat.le_zero.mp hf)
    subst this
    rw [reSubFuel_nil, reSubFuel_nil]
  | succ k ih =>
    intro s g prev hf hg
    cases s with
    | nil => rw [reSubFuel_nil, reSubFuel_nil]
    | cons c cs =>
      cases g with
      | zero => simp at hg
      | succ j =>
        cases hm : m prev (c :: cs) with
        | none =>
          rw [reSubFuel_none m k hm, reSubFuel_none m j hm]
          congr 1
          exact ih cs j (some c) (Nat.le_of_succ_le_succ hf) (Nat.le_of_succ_le_succ hg)
        | some v =>
          obtain ⟨r, matched, rest⟩ := v
          by_cases hlt : rest.length < (c :: cs).length
          · rw [reSubFuel_some m k hm hlt, reSubFuel_some m j hm hlt]
            congr 1
            apply ih
            · exact Nat.le_of_lt_succ (Nat.lt_of_lt_of_le hlt hf)
            · exact Nat.le_of_lt_succ (Nat.lt_of_lt_of_le hlt hg)
          · have e1 : reSubFuel m (k + 1) prev (c :: cs) = c :: reSubFuel m k (some c) cs := by
              conv_lhs => unfold reSubFuel
              rw [hm]
              simp only [List.length_cons] at hlt
              simp [hlt]
            have e2 : reSubFuel m (j + 1) prev (c :: cs) = c :: reSubFuel m j (some c) cs := by
              conv_lhs => unfold reSubFuel
              rw [hm]
              simp only [List.length_cons] at hlt
              simp [hlt]
            rw [e1, e2]
            congr 1
            exact ih cs j (some c) (Nat.le_of_succ_le_succ hf) (Nat.le_of_succ_le_succ hg)

/-- If no position inside `pre` (even looking into `rest`) matches, the
scan copies `pre` and continues on `rest`. -/
theorem reSubFuel_append (m : Matcher) :
    ∀ (pre : List Char) (rest : List Char) (f : Nat) (prev : Option Char),
      (∀ a b, a ++ b = pre → b ≠ [] → m (prevAfter prev a) (b ++ rest) = none) →
      reSubFuel m f prev (pre ++ rest)
        = pre ++ reSubFuel m (f - pre.length) (prevAfter prev pre) rest := by
  intro pre
  induction pre with
  | nil => intro rest f prev _; simp [prevAfter_nil]
  | cons c pre' ih =>
    intro rest f prev h
    cases f with
    | zero => simp [reSubFuel]
    | succ k =>
      have h0 : m prev (c :: (pre' ++ rest)) = none := by
        have := h [] (c :: pre') rfl (by simp)
        simpa [prevAfter_nil] using this
      show reSubFuel m (k + 1) prev (c :: (pre' ++ rest)) = _
      rw [reSubFuel_none m k h0]
      have hrec : reSubFuel m k (some c) (pre' ++ rest)
          = pre' ++ reSubFuel m (k - pre'.length) (prevAfter (some c) pre') rest := by
        apply ih
        intro a b hab hb
        have := h (c :: a) b (by rw [← hab]; rfl) hb
        rwa [prevAfter_cons] at this
      rw [hrec, prevAfter_cons]
      simp [Nat.succ_sub_succ]

/-- For matchers that ignore the preceding character, the scan does not
depend on the initial `prev`. -/
theorem reSubFuel_prev_irrel (core : List Char → Option (List Char × List Char × List Char)) :
    ∀ (f : Nat) (s : List Char) (p q : Option Char),
      reSubFuel (mkMatcher (fun _ => true) core) f p s
        = reSubFuel (mkMatcher (fun _ => true) core) f q s := by
  intro f
  induction f with
  | zero => intro s p q; rfl
  | succ k ih =>
    intro s p q
    cases s with
    | nil => rfl
    | cons c cs =>
      have hm : mkMatcher (fun _ => true) core p (c :: cs)
          = mkMatcher (fun _ => true) core q (c :: cs) := rfl
      cases hc : mkMatcher (fun _ => true) core p (c :: cs) with
      | none =>
        rw [reSubFuel_none _ k hc, reSubFuel_none _ k (hm.symm.trans hc)]
      | some v =>
        obtain ⟨r, matched, rest⟩ := v
        by_cases hlt : rest.length < (c :: cs).length
        · rw [reSubFuel_some _ k hc hlt, reSubFuel_some _ k (hm.symm.trans hc) hlt]
          congr 1
          exact ih rest (prevAfter p matched) (prevAfter q matched)
        · have e1 : reSubFuel (mkMatcher (fun _ => true) core) (k + 1) p (c :: cs)
              = c :: reSubFuel (mkMatcher (fun _ => true) core) k (some c) cs := by
            conv_lhs => unfold reSubFuel
            rw [hc]
            simp only [List.length_cons] at hlt
            simp [hlt]
          have e2 : reSubFuel (mkMatcher (fun _ => true) core) (k + 1) q (c :: cs)
              = c :: reSubFuel (mkMatcher (fun _ => true) core) k (some c) cs := by
            conv_lhs => unfold reSubFuel
            rw [hm.symm.trans hc]
            simp only [List.length_cons] at hlt
            simp [hlt]
          rw [e1, e2]

/-- Identity form usable with decidable, `prev`-free hypotheses. -/
theorem reSub_id_core (prevOk : Option Char → Bool)
    (core : List Char → Option (List Char × List Char × List Char)) (s : List Char)
    (h : ∀ suf ∈ s.tails, suf ≠ [] → core suf = none) :
    reSub (mkMatcher prevOk core) s = s := by
  apply reSubFuel_id
  intro pre suf hps hne
  have hsuf : suf ∈ s.tails := by
    rw [List.mem_tails]
    exact ⟨pre, hps⟩
  unfold mkMatcher
  rw [h suf hsuf hne]
  simp

/-- Decomposition form for `prev`-insensitive matchers with decidable
hypotheses: nothing in `pre` matches, so the scan skips it. -/
theorem reSub_append_core
    (core : List Char → Option (List Char × List Char × List Char)) (pre rest : List Char)
    (h : ∀ suf ∈ pre.tails, suf ≠ [] → core (suf ++ rest) = none) :
    reSub (mkMatcher (fun _ => true) core) (pre ++ rest)
      = pre ++ reSub (mkMatcher (fun _ => true) core) rest := by
  unfold reSub
  rw [reSubFuel_append]
  · have h1 : (pre ++ rest).length - pre.length = rest.length := by
      simp
    rw [h1, reSubFuel_prev_irrel core rest.length rest (prevAfter none pre) none]
  · intro a b hab hb
    have hsuf : b ∈ pre.tails := by
      rw [List.mem_tails]
      exact ⟨a, hab⟩
    unfold mkMatcher
    rw [h b hsuf hb]
    simp

/-! ### Matcher-level helper lemmas -/

theorem mkMatcher_none_shift {ok : Option Char → Bool}
    {core : List Char → Option (List Char × List Char × List Char)} {s : List Char}
    (hok : ok none = true) (h : mkMatcher ok core none s = none) (pc : Option Char) :
    mkMatcher ok core pc s = none := by
  have hcore : core s = none := by
    unfold mkMatcher at h
    rwa [hok, if_pos rfl] at h
  unfold mkMatcher
  split
  · exact hcore
  · rfl

/-- Identity form of `reSub` with decidable hypotheses. -/
theorem reSub_id_dec (ok : Option Char → Bool)
    (core : List Char → Option (List Char × List Char × List Char)) (s : List Char)
    (hok : ok none = true)
    (h : ∀ suf ∈ s.tails, suf ≠ [] → mkMatcher ok core none suf = none) :
    reSub (mkMatcher ok core) s = s := by
  apply reSubFuel_id
  intro pre suf hps hne
  exact mkMatcher_none_shift hok
    (h suf (by rw [List.mem_tails]; exact ⟨pre, hps⟩) hne) _

/-- Decomposition form of `reSub` with decidable hypotheses. -/
theorem reSub_append_dec
    (core : List Char → Option (List Char × List Char × List Char)) (pre rest : List Char)
    (h : ∀ suf ∈ pre.tails, suf ≠ [] → mkMatcher (fun _ => true) core none (suf ++ rest) = none) :
    reSub (mkMatcher (fun _ => true) core) (pre ++ rest)
      = pre ++ reSub (mkMatcher (fun _ => true) core) rest :=
  reSub_append_core core pre rest (fun suf hs hne => h suf hs hne)

/-- A successful core match at the head rewrites there and continues after
the matched text. -/
theorem reSub_head_match
    (core : List Char → Option (List Char × List Char × List Char)) {s r matched rest : List Char}
    (h : core s = some (r, matched, rest)) (hlt : rest.length < s.length) :
    reSub (mkMatcher (fun _ => true) core) s
      = r ++ reSub (mkMatcher (fun _ => true) core) rest := by
  cases s with
  | nil => simp at hlt
  | cons c cs =>
    have hm : mkMatcher (fun _ => true) core none (c :: cs) = some (r, matched, rest) := h
    show reSubFuel _ (c :: cs).length none (c :: cs) = _
    have : (c :: cs).length = cs.length + 1 := rfl
    rw [this, reSubFuel_some _ cs.length hm hlt]
    congr 1
    rw [reSubFuel_prev_irrel core cs.length rest (prevAfter none matched) none]
    exact reSubFuel_congr _ cs.length rest rest.length none
      (Nat.le_of_lt_succ (by simpa using hlt)) le_rfl

/-! ### Parser computation lemmas -/

theorem pLitCS_self (l x : List Char) : pLitCS l (l ++ x) = some (l, x) := by
  induction l with
  | nil => rfl
  | cons c cs ih => simp [pLitCS, ih]

theorem pLitCI_exact : ∀ {p x : List Char}, ciPre p x = true → p.length = x.length →
    ∀ (b : List Char), pLitCI p (x ++ b) = some (x, b) := by
  intro p
  induction p with
  | nil =>
    intro x _ hlen b
    have : x = [] := List.length_eq_zero.mp hlen.symm
    subst this
    rfl
  | cons q qs ih =>
    intro x hci hlen b
    cases x with
    | nil => simp at hlen
    | cons c cs =>
      simp only [ciPre, preWith, Bool.and_eq_true] at hci
      simp only [List.cons_append, pLitCI, hci.1, if_pos]
      rw [ih (by simpa [ciPre] using hci.2) (by simpa using hlen) b]

theorem scanThru_exact {stop : Char} : ∀ {mid : List Char},
    (∀ c ∈ mid, (c == stop) = false) →
    ∀ (post : List Char), scanThru stop true (mid ++ stop :: post) = some (mid ++ [stop], post) := by
  intro mid
  induction mid with
  | nil =>
    intro _ post
    simp [scanThru]
  | cons c cs ih =>
    intro h post
    have hc : (c == stop) = false := h c (by simp)
    have ihh := ih (fun d hd => h d (by simp [hd])) post
    simp [scanThru, hc, ihh]

theorem joinNl_cons {l : List Char} {ls : List (List Char)} (h : ls ≠ []) :
    joinNl (l :: ls) = l ++ chNl :: joinNl ls := by
  cases ls with
  | nil => exact absurd rfl h
  | cons x xs => rfl

/-! ### Scan-stage helper lemmas -/

theorem scanLineStep_no_fk {inC : Bool} {cur : Option (List Char)} {line : List Char}
    (hfk : fkCheck line = false) :
    (scanLineStep inC cur line).2.2.2 = none := by
  unfold scanLineStep
  simp only [hfk, Bool.and_false]
  rw [if_neg (by simp)]
  repeat' split
  all_goals rfl

theorem scanLines_no_fk : ∀ (ls : List (List Char)) (inC : Bool) (cur : Option (List Char)),
    (∀ l ∈ ls, fkCheck l = false) → (scanLines inC cur ls).2 = [] := by
  intro ls
  induction ls with
  | nil => intro inC cur _; rfl
  | cons l ls ih =>
    intro inC cur h
    have h4 : (scanLineStep inC cur l).2.2.2 = none := scanLineStep_no_fk (h l (by simp))
    simp only [scanLines, h4]
    exact ih _ _ (fun x hx => h x (by simp [hx]))

/-! ### Shared concrete-run lemmas -/

set_option maxHeartbeats 12000000 in
/-- Running the whole converter on the C1 scenario input. -/
theorem convert_c1_eq : convert_mysql_to_postgres c1input = c1output := by decide

/-! ### Claims -/

/-- Claim C1, counterexample: on the single-line scenario input the
converted output contains neither a table definition with `"id" SERIAL`
nor the claimed `ALTER TABLE "t" ADD CONSTRAINT "fk1" FOREIGN KEY (a)
REFERENCES "u" (id) ON DELETE CASCADE;` statement (the whole `CREATE
TABLE` line is dropped because the foreign-key clause sits on it, and the
emitted statement keeps the quoted column lists plus the stray `);`). -/
theorem c1_counterexample :
    hasSub (("\"id\" SERIAL").data) (convert_mysql_to_postgres c1input) = false ∧
    hasSub c1claimedAlter (convert_mysql_to_postgres c1input) = false := by
  rw [convert_c1_eq]
  decide

/-- Claim C1, amended: for the single-line scenario input the converter
drops the `CREATE TABLE` line entirely (the foreign-key clause is
recognized on that same line, so the line scan skips it whole) and the
output consists solely of the trailing constraint block whose statement is
`ALTER TABLE "t" ADD CONSTRAINT "fk1" FOREIGN KEY ("a") REFERENCES "u"
("id") ON DELETE CASCADE);;`. -/
theorem c1_theorem : convert_mysql_to_postgres c1input = c1output := convert_c1_eq

/-- Claim C3, counterexample: `c3input` contains no foreign-key clause, no
secondary-index key line and no blank lines, yet the Constraint Deferral
Pass does not leave it unchanged (the `DISABLE KEYS` statement removal of
the pass erases it). -/
theorem c3_counterexample :
    ((splitNl c3input).all (fun l => !fkCheck l)) = true ∧
    ((splitNl c3input).all (fun l => !keyLineMatch l)) = true ∧
    c3input.contains chNl = false ∧
    deferralPass c3input ≠ c3input := by decide

/-- Claim C3, amended: for every input none of whose lines contains a
foreign-key constraint clause, the Constraint Deferral Pass records no
deferred constraint and appends no trailing constraint block; it is
exactly the line scan followed by the dangling-comma removal, the
`DISABLE KEYS`/`ENABLE KEYS` statement removal and the blank-line
collapsing. -/
theorem c3_theorem (content : List Char)
    (h : ∀ l ∈ splitNl content, fkCheck l = false) :
    (scanLines false none (splitNl content)).2 = [] ∧
    deferralPass content =
      reSub mBlankLines (reSub mEnableKeys (reSub mDisableKeys
        (reSub mTrailingComma (joinNl (scanLines false none (splitNl content)).1)))) := by
  have h2 := scanLines_no_fk (splitNl content) false none h
  refine ⟨h2, ?_⟩
  unfold deferralPass
  simp only [h2, appendForeignKeys]

/-- Claim C3 witness: a concrete foreign-key-free input. -/
theorem c3_witness :
    (scanLines false none (splitNl (("CREATE TABLE \"t\" (\n  \"a\" INTEGER\n);").data))).2 = [] ∧
    deferralPass (("CREATE TABLE \"t\" (\n  \"a\" INTEGER\n);").data) =
      reSub mBlankLines (reSub mEnableKeys (reSub mDisableKeys
        (reSub mTrailingComma (joinNl
          (scanLines false none (splitNl (("CREATE TABLE \"t\" (\n  \"a\" INTEGER\n);").data))).1)))) :=
  c3_theorem _ (by decide)

/-- Claim C5, counterexample: inside an open table definition, a
`UNIQUE KEY` line is a key definition that is neither a primary key nor a
foreign key, yet the pass keeps it in the output (the anchored pattern
`\s*KEY\s+"` does not match a line starting with `UNIQUE`). -/
theorem c5_counterexample :
    hasSubCI (("create table").data) c5input = true ∧
    hasSub (("UNIQUE KEY").data) c5input = true ∧
    hasSub (("UNIQUE KEY").data) (deferralPass c5input) = true := by decide

/-- Claim C5, amended: inside an open table-definition context the scan
drops exactly the lines whose leading whitespace is followed by `KEY` and
a quoted name (the anchored `\s*KEY\s+"` pattern); any other
non-constraint line — including `UNIQUE KEY` lines — passes through
unchanged. -/
theorem c5_theorem (cur : Option (List Char)) (line : List Char)
    (hct : hasSubCI (("create table").data) line = false)
    (hfk : fkCheck line = false) :
    (keyLineMatch line = true → scanLineStep true cur line = (true, cur, false, none)) ∧
    (keyLineMatch line = false → (line.contains ')' && line.contains ';') = false →
      scanLineStep true cur line = (true, cur, true, none)) := by
  constructor
  · intro hk
    unfold scanLineStep
    simp [hct, hfk, hk]
  · intro hk hcl
    unfold scanLineStep
    simp [hct, hfk, hk, Bool.and_assoc, hcl]
    intro hp hs
    rcases Bool.and_eq_false_iff.mp hcl with h | h <;> simp_all

/-- Claim C5 witness: a plain `KEY` line is dropped, a `UNIQUE KEY` line
is kept. -/
theorem c5_witness :
    scanLineStep true (some (("t").data)) (("  KEY \"i\" (\"a\"),").data)
      = (true, some (("t").data), false, none) ∧
    scanLineStep true (some (("t").data)) (("  UNIQUE KEY \"u\" (\"a\"),").data)
      = (true, some (("t").data), true, none) :=
  ⟨(c5_theorem _ _ (by decide) (by decide)).1 (by decide),
   (c5_theorem _ _ (by decide) (by decide)).2 (by decide) (by decide)⟩

/-- Claim C6, counterexample: `c6input` has exactly one run of two
consecutive blank lines (three newlines), fewer than the three blank
lines the claim requires, yet the collapsing rule rewrites it. -/
theorem c6_counterexample :
    splitNl c6input = [['a'], [], [], ['b']] ∧
    reSub mBlankLines c6input ≠ c6input := by decide

/-- Claim C7: if any deferred-constraint records exist after the scan, the
labeled block is appended with exactly one `fkStmt` statement per record
in list (discovery) order; if none exist, the content is returned
untouched. -/
theorem c7_theorem (content : List Char) (fks : List FK) :
    (fks = [] → appendForeignKeys content fks = content) ∧
    (fks ≠ [] → appendForeignKeys content fks
        = content ++ fkBlockLabel ++ chNl :: joinNl (fks.map fkStmt)) := by
  constructor
  · intro h
    subst h
    rfl
  · intro h
    cases fks with
    | nil => exact absurd rfl h
    | cons f fs =>
      show content ++ joinNl (fkBlockLabel :: (f :: fs).map fkStmt) = _
      rw [joinNl_cons (by simp)]
      simp [List.append_assoc]

/-- Claim C7 witness: the empty and the one-record cases at concrete
values. -/
theorem c7_witness :
    appendForeignKeys (("x").data) [] = ("x").data ∧
    appendForeignKeys (("x").data) [fkExample]
      = ("x").data ++ fkBlockLabel ++ chNl :: joinNl ([fkExample].map fkStmt) :=
  ⟨(c7_theorem (("x").data) []).1 rfl, (c7_theorem (("x").data) [fkExample]).2 (by simp)⟩

/-- Claim C8: a line carrying a foreign-key constraint clause that is
scanned outside any open table-definition context (and does not itself
open one) produces no deferred-constraint record, is passed through
unchanged, and leaves the scan state untouched; the step is total, so no
error is raised. -/
theorem c8_theorem (cur : Option (List Char)) (line : List Char)
    (_hfk : fkCheck line = true)
    (hct : hasSubCI (("create table").data) line = false) :
    scanLineStep false cur line = (false, cur, true, none) := by
  unfold scanLineStep
  simp [hct]

/-- Claim C8 witness: a concrete foreign-key clause line outside any open
table context. -/
theorem c8_witness :
    fkCheck (("CONSTRAINT \"fk\" FOREIGN KEY (\"a\") REFERENCES \"z\" (\"b\") ON DELETE CASCADE,").data) = true ∧
    scanLineStep false none
      (("CONSTRAINT \"fk\" FOREIGN KEY (\"a\") REFERENCES \"z\" (\"b\") ON DELETE CASCADE,").data)
      = (false, none, true, none) :=
  ⟨by decide, c8_theorem none _ (by decide) (by decide)⟩

/-- Claim C9, counterexample: the boolean/small-integer/text/timestamp
rules are not idempotent: on `tinyintinyint` the first pass produces
`SMALLINTinyint`, whose junction spells `Tinyint` again, so a second pass
rewrites it further. -/
theorem c9_counterexample :
    typeNormRules (typeNormRules c9input) ≠ typeNormRules c9input := by decide

/-- Claim C9, amended: the rules are idempotent on any input whose once-
converted text matches none of the six patterns at any position (this
excludes junction re-creations such as `tinyintinyint`). -/
theorem c9_theorem (s : List Char)
    (h1 : ∀ suf ∈ (typeNormRules s).tails, suf ≠ [] → mTinyint1 none suf = none)
    (h2 : ∀ suf ∈ (typeNormRules s).tails, suf ≠ [] → mTinyint none suf = none)
    (h3 : ∀ suf ∈ (typeNormRules s).tails, suf ≠ [] → mDatetime none suf = none)
    (h4 : ∀ suf ∈ (typeNormRules s).tails, suf ≠ [] → mVarchar none suf = none)
    (h5 : ∀ suf ∈ (typeNormRules s).tails, suf ≠ [] → mLongtext none suf = none)
    (h6 : ∀ suf ∈ (typeNormRules s).tails, suf ≠ [] → mMediumtext none suf = none) :
    typeNormRules (typeNormRules s) = typeNormRules s := by
  have e1 : reSub mTinyint1 (typeNormRules s) = typeNormRules s :=
    reSub_id_dec _ _ _ rfl h1
  have e2 : reSub mTinyint (typeNormRules s) = typeNormRules s :=
    reSub_id_dec _ _ _ rfl h2
  have e3 : reSub mDatetime (typeNormRules s) = typeNormRules s :=
    reSub_id_dec _ _ _ rfl h3
  have e4 : reSub mVarchar (typeNormRules s) = typeNormRules s :=
    reSub_id_dec _ _ _ rfl h4
  have e5 : reSub mLongtext (typeNormRules s) = typeNormRules s :=
    reSub_id_dec _ _ _ rfl h5
  have e6 : reSub mMediumtext (typeNormRules s) = typeNormRules s :=
    reSub_id_dec _ _ _ rfl h6
  show reSub mMediumtext (reSub mLongtext (reSub mVarchar (reSub mDatetime
    (reSub mTinyint (reSub mTinyint1 (typeNormRules s)))))) = typeNormRules s
  rw [e1, e2, e3, e4, e5, e6]

/-- Claim C9 witness: a concrete already-convertible input on which the
rules are idempotent. -/
theorem c9_witness :
    typeNormRules (typeNormRules (("a tinyint(4) b datetime c").data))
      = typeNormRules (("a tinyint(4) b datetime c").data) :=
  c9_theorem _ (by decide) (by decide) (by decide) (by decide) (by decide) (by decide)

/-! ### Whitespace-run lemmas for the cleanup rules -/

theorem takeWhile_all_append {f : Char → Bool} :
    ∀ {w : List Char}, (∀ c ∈ w, f c = true) →
    ∀ {b : List Char}, (∀ c, b.head? = some c → f c = false) →
    (w ++ b).takeWhile f = w ∧ (w ++ b).dropWhile f = b := by
  intro w
  induction w with
  | nil =>
    intro _ b hb
    cases b with
    | nil => simp
    | cons x t =>
      have hx : f x = false := hb x rfl
      simp [List.takeWhile, List.dropWhile, hx]
  | cons c cs ih =>
    intro hw b hb
    have hc : f c = true := hw c (by simp)
    have := ih (fun d hd => hw d (by simp [hd])) hb
    simp [List.takeWhile, List.dropWhile, hc, this.1, this.2]

/-- Computation of the dangling-comma matcher at its match site. -/
theorem coreTrailingComma_at (w b : List Char)
    (hw : ∀ c ∈ w, isWs c = true) (hnl : w.contains chNl = true) :
    coreTrailingComma (',' :: (w ++ (")" ++ ";").data ++ b))
      = some (w ++ (")" ++ ";").data, ',' :: w ++ (")" ++ ";").data, b) := by
  have hsplit : ((w ++ ((")" ++ ";").data ++ b)).takeWhile isWs = w)
      ∧ ((w ++ ((")" ++ ";").data ++ b)).dropWhile isWs = (")" ++ ";").data ++ b) :=
    takeWhile_all_append hw (by intro c hc; simp at hc; rw [← hc]; rfl)
  rw [List.append_assoc]
  simp only [coreTrailingComma, hsplit.1, hsplit.2, hnl]
  simp [csPre, preWith]

theorem dropWhile_notNl_replicate (n : Nat) :
    List.dropWhile (fun d => !(d == chNl)) (List.replicate (n + 1) chNl)
      = List.replicate (n + 1) chNl := by
  rw [List.replicate_succ]
  simp [List.dropWhile]

theorem filter_nl_replicate (n : Nat) :
    List.filter (fun d => d == chNl) (List.replicate n chNl) = List.replicate n chNl := by
  induction n with
  | zero => rfl
  | succ m ih => simp [List.replicate_succ, List.filter, ih]

/-- Computation of the blank-line matcher at a run of `k ≥ 3` newlines. -/
theorem coreBlankLines_at (k : Nat) (b : List Char) (hk : 3 ≤ k)
    (hb : ∀ c, b.head? = some c → isWs c = false) :
    coreBlankLines (List.replicate k chNl ++ b)
      = some ([chNl, chNl], List.replicate k chNl, b) := by
  obtain ⟨j, rfl⟩ : ∃ j, k = j + 1 := ⟨k - 1, by omega⟩
  have hrepl : ∀ c ∈ List.replicate j chNl, isWs c = true := by
    intro c hc
    rw [List.eq_of_mem_replicate hc]
    rfl
  have htake : (List.replicate j chNl ++ b).takeWhile isWs = List.replicate j chNl :=
    (takeWhile_all_append hrepl hb).1
  have hrun : List.replicate (j + 1) chNl ++ b = chNl :: (List.replicate j chNl ++ b) := by
    rw [List.replicate_succ]
    rfl
  rw [hrun]
  simp only [coreBlankLines, htake, beq_self_eq_true, if_pos]
  have hconsrep : chNl :: List.replicate j chNl = List.replicate (j + 1) chNl :=
    (List.replicate_succ chNl j).symm
  rw [hconsrep, List.reverse_replicate, dropWhile_notNl_replicate, List.reverse_replicate]
  rw [filter_nl_replicate]
  simp only [List.length_replicate]
  rw [if_pos (by exact hk)]
  have hdrop : (List.replicate (j + 1) chNl ++ b).drop (j + 1) = b := by
    have := List.drop_left (List.replicate (j + 1) chNl) b
    rwa [List.length_replicate] at this
  rw [← hrun, hdrop]

/-- Claim C6, amended: after the deferral scan, a dangling comma is
removed exactly when it is followed by a whitespace run containing at
least one newline and then the closing `);`; and a whitespace run of `k ≥ 3`
newlines (two or more consecutive blank lines, possibly with other
whitespace interleaved) collapses to exactly one blank line, while text
with no such run — in particular any run of at most two newlines — is left
unchanged. -/
theorem c6_theorem :
    (∀ a w b : List Char,
      (∀ suf ∈ a.tails, suf ≠ [] →
        mTrailingComma none (suf ++ (',' :: (w ++ (")" ++ ";").data ++ b))) = none) →
      (∀ c ∈ w, isWs c = true) → w.contains chNl = true →
      reSub mTrailingComma (a ++ (',' :: (w ++ (")" ++ ";").data ++ b)))
        = a ++ ((w ++ (")" ++ ";").data) ++ reSub mTrailingComma b)) ∧
    (∀ (a : List Char) (k : Nat) (b : List Char),
      (∀ suf ∈ a.tails, suf ≠ [] →
        mBlankLines none (suf ++ (List.replicate k chNl ++ b)) = none) →
      3 ≤ k → (∀ c, b.head? = some c → isWs c = false) →
      reSub mBlankLines (a ++ (List.replicate k chNl ++ b))
        = a ++ ([chNl, chNl] ++ reSub mBlankLines b)) ∧
    (∀ s : List Char,
      (∀ suf ∈ s.tails, suf ≠ [] → mBlankLines none suf = none) →
      reSub mBlankLines s = s) := by
  refine ⟨?_, ?_, ?_⟩
  · intro a w b ha hw hnl
    unfold mTrailingComma at ha ⊢
    rw [reSub_append_dec _ a _ ha]
    congr 1
    have hm := coreTrailingComma_at w b hw hnl
    rw [reSub_head_match _ hm (by simp; omega)]
  · intro a k b ha hk hb
    unfold mBlankLines at ha ⊢
    rw [reSub_append_dec _ a _ ha]
    congr 1
    have hm := coreBlankLines_at k b hk hb
    rw [reSub_head_match _ hm (by simp; omega)]
  · intro s h
    exact reSub_id_dec _ _ _ rfl h

/-- Claim C6 witness: concrete instances of all three behaviors. -/
theorem c6_witness :
    reSub mTrailingComma (("x").data ++ (',' :: ([chNl] ++ (")" ++ ";").data ++ ("y").data)))
      = ("x").data ++ (([chNl] ++ (")" ++ ";").data) ++ reSub mTrailingComma (("y").data)) ∧
    reSub mBlankLines (("a").data ++ (List.replicate 3 chNl ++ ("b").data))
      = ("a").data ++ ([chNl, chNl] ++ reSub mBlankLines (("b").data)) ∧
    reSub mBlankLines (("a" ++ "\n\nb").data) = ("a" ++ "\n\nb").data :=
  ⟨c6_theorem.1 (("x").data) [chNl] (("y").data) (by decide) (by decide) (by decide),
   c6_theorem.2.1 (("a").data) 3 (("b").data) (by decide) (by decide) (by decide),
   c6_theorem.2.2 _ (by decide)⟩

/-! ### Literal-match computation lemmas for the tinyint rules -/

/-- The boolean rule fires on a literal `tinyint(1)`. -/
theorem coreTinyint1_at (b : List Char) :
    coreTinyint1 (("tinyint(1)").data ++ b)
      = some ((("BOOLEAN").data), ("tinyint(1)").data, b) := rfl

/-- The small-integer rule fires on a literal `tinyint(4)`. -/
theorem coreTinyint_at4 (b : List Char) :
    coreTinyint (("tinyint(4)").data ++ b)
      = some ((("SMALLINT").data), ("tinyint(4)").data, b) := rfl

/-- Claim C10: `tinyint(1)` becomes `BOOLEAN` (the boolean rule, which
runs first, claims it) and `tinyint(4)` becomes `SMALLINT`, under the
pipeline order boolean-rule-then-small-integer-rule of source lines
76–80. -/
theorem c10_theorem :
    (∀ a b : List Char,
      (∀ suf ∈ a.tails, suf ≠ [] →
        mTinyint1 none (suf ++ (("tinyint(1)").data ++ b)) = none) →
      (∀ suf ∈ b.tails, suf ≠ [] → mTinyint1 none suf = none) →
      (∀ suf ∈ (a ++ (("BOOLEAN").data ++ b)).tails, suf ≠ [] → mTinyint none suf = none) →
      reSub mTinyint (reSub mTinyint1 (a ++ (("tinyint(1)").data ++ b)))
        = a ++ (("BOOLEAN").data ++ b)) ∧
    (∀ a b : List Char,
      (∀ suf ∈ (a ++ (("tinyint(4)").data ++ b)).tails, suf ≠ [] → mTinyint1 none suf = none) →
      (∀ suf ∈ a.tails, suf ≠ [] →
        mTinyint none (suf ++ (("tinyint(4)").data ++ b)) = none) →
      (∀ suf ∈ b.tails, suf ≠ [] → mTinyint none suf = none) →
      reSub mTinyint (reSub mTinyint1 (a ++ (("tinyint(4)").data ++ b)))
        = a ++ (("SMALLINT").data ++ b)) := by
  constructor
  · intro a b ha hb hall
    have e1 : reSub mTinyint1 (a ++ (("tinyint(1)").data ++ b))
        = a ++ (("BOOLEAN").data ++ reSub mTinyint1 b) := by
      unfold mTinyint1 at ha ⊢
      rw [reSub_append_dec _ a _ ha]
      congr 1
      rw [reSub_head_match _ (coreTinyint1_at b) (by simp; omega)]
    have e2 : reSub mTinyint1 b = b := by
      unfold mTinyint1 at hb
      exact reSub_id_dec _ _ _ rfl hb
    rw [e1, e2]
    unfold mTinyint at hall
    exact reSub_id_dec _ _ _ rfl hall
  · intro a b hall ha hb
    have e1 : reSub mTinyint1 (a ++ (("tinyint(4)").data ++ b)) = a ++ (("tinyint(4)").data ++ b) := by
      unfold mTinyint1 at hall
      exact reSub_id_dec _ _ _ rfl hall
    rw [e1]
    have e2 : reSub mTinyint (a ++ (("tinyint(4)").data ++ b))
        = a ++ (("SMALLINT").data ++ reSub mTinyint b) := by
      unfold mTinyint at ha ⊢
      rw [reSub_append_dec _ a _ ha]
      congr 1
      rw [reSub_head_match _ (coreTinyint_at4 b) (by simp; omega)]
    have e3 : reSub mTinyint b = b := by
      unfold mTinyint at hb
      exact reSub_id_dec _ _ _ rfl hb
    rw [e2, e3]

/-- Claim C10 witness: both rewrites inside surrounding text. -/
theorem c10_witness :
    reSub mTinyint (reSub mTinyint1 ((("x ").data) ++ (("tinyint(1)").data ++ (" y").data)))
      = ("x ").data ++ (("BOOLEAN").data ++ (" y").data) ∧
    reSub mTinyint (reSub mTinyint1 ((("x ").data) ++ (("tinyint(4)").data ++ (" y").data)))
      = ("x ").data ++ (("SMALLINT").data ++ (" y").data) :=
  ⟨c10_theorem.1 (("x ").data) ((" y").data) (by decide) (by decide) (by decide),
   c10_theorem.2 (("x ").data) ((" y").data) (by decide) (by decide) (by decide)⟩

/-! ### Insert-statement computation lemmas -/

/-- The quote-fix substitution rewrites each backslash–quote pair to two
quotes, leaving everything else alone. -/
theorem fixq_append : ∀ (u v : List Char), u.contains chBs = false →
    fix_quotes_in_inserts (u ++ chBs :: chSq :: v)
      = u ++ chSq :: chSq :: fix_quotes_in_inserts v := by
  intro u
  induction u with
  | nil =>
    intro v _
    simp [fix_quotes_in_inserts]
  | cons c u' ih =>
    intro v h
    have hprop : ¬chBs = c ∧ chBs ∉ u' := by simpa [List.contains_cons] using h
    have hs : (c == chBs) = false ∧ u'.contains chBs = false := by
      constructor
      · cases hcv : c == chBs
        · rfl
        · have hce : c = chBs := by simpa using hcv
          exact absurd hce.symm hprop.1
      · cases hcv : u'.contains chBs
        · rfl
        · have hmem : chBs ∈ u' := by simpa using hcv
          exact absurd hmem hprop.2
    have step : fix_quotes_in_inserts (c :: (u' ++ chBs :: chSq :: v))
        = c :: fix_quotes_in_inserts (u' ++ chBs :: chSq :: v) := by
      cases u' with
      | nil => simp [fix_quotes_in_inserts, hs.1]
      | cons e u'' => simp [fix_quotes_in_inserts, hs.1]
    rw [List.cons_append, step, ih v hs.2]
    simp

/-- The insert matcher fires from the `INSERT INTO` keyword through the
first semicolon, converting the escaped quotes of exactly that region. -/
theorem coreInsert_at (mid post : List Char) (hmid : ∀ c ∈ mid, (c == ';') = false) :
    coreInsert (("INSERT INTO").data ++ (mid ++ ';' :: post))
      = some (fix_quotes_in_inserts (("INSERT INTO").data ++ (mid ++ [';'])),
              ("INSERT INTO").data ++ (mid ++ [';']), post) := by
  unfold coreInsert coreOfP pThen
  rw [pLitCS_self]
  dsimp only
  rw [scanThru_exact hmid post]

/-- Claim C4: backslash-escaped quotes inside an insert statement (from
the `INSERT INTO` keyword to its terminating semicolon) are converted by
`fix_quotes_in_inserts` to doubled-quote escaping, while the text before
the statement is copied unchanged and the text after it is processed
independently; and the conversion rewrites every backslash–quote pair to
two quote characters. -/
theorem c4_theorem (pre mid post : List Char)
    (hpre : ∀ suf ∈ pre.tails, suf ≠ [] →
      mInsert none (suf ++ (("INSERT INTO").data ++ (mid ++ ';' :: post))) = none)
    (hmid : ∀ c ∈ mid, (c == ';') = false) :
    reSub mInsert (pre ++ (("INSERT INTO").data ++ (mid ++ ';' :: post)))
      = pre ++ (fix_quotes_in_inserts (("INSERT INTO").data ++ (mid ++ [';']))
          ++ reSub mInsert post) ∧
    (∀ u v : List Char, u.contains chBs = false →
      fix_quotes_in_inserts (u ++ chBs :: chSq :: v)
        = u ++ chSq :: chSq :: fix_quotes_in_inserts v) := by
  constructor
  · unfold mInsert at hpre ⊢
    rw [reSub_append_dec _ pre _ hpre]
    congr 1
    have hc := coreInsert_at mid post hmid
    rw [reSub_head_match _ hc (by simp; omega)]
  · exact fun u v h => fixq_append u v h

/-- Claim C4 witness: an escaped quote before the insert statement is left
alone, the ones inside it are doubled, and one after it is left to the
recursive tail. -/
theorem c4_witness :
    reSub mInsert ((("a ").data ++ chBs :: chSq :: (" ").data)
        ++ (("INSERT INTO").data ++ (((" t VALUES (").data ++ chSq :: chBs :: chSq :: chSq :: (")").data) ++ ';' :: ((" b ").data ++ chBs :: chSq :: []))))
      = (("a ").data ++ chBs :: chSq :: (" ").data)
        ++ (fix_quotes_in_inserts (("INSERT INTO").data
              ++ (((" t VALUES (").data ++ chSq :: chBs :: chSq :: chSq :: (")").data) ++ [';']))
            ++ reSub mInsert ((" b ").data ++ chBs :: chSq :: [])) ∧
    fix_quotes_in_inserts ((("x").data) ++ chBs :: chSq :: (("y").data))
      = ("x").data ++ chSq :: chSq :: fix_quotes_in_inserts (("y").data) :=
  ⟨(c4_theorem _ _ _ (by decide) (by decide)).1,
   (c4_theorem (("a").data) [] [] (by decide) (by decide)).2 (("x").data) (("y").data) (by decide)⟩

/-! ### Occurrence-exclusion lemmas for the C2 family -/

/-! ### Character-class lemmas for case-insensitive matching -/

theorem toNat_ofNat_valid {n : Nat} (h : n.isValidChar) : (Char.ofNat n).toNat = n := by
  rw [Char.ofNat, dif_pos h]
  rfl

theorem toLower_cases (c : Char) :
    Char.toLower c = c ∨
    (65 ≤ c.toNat ∧ c.toNat ≤ 90 ∧ (Char.toLower c).toNat = c.toNat + 32) := by
  unfold Char.toLower
  by_cases h : c.toNat ≥ 65 ∧ c.toNat ≤ 90
  · right
    refine ⟨h.1, h.2, ?_⟩
    rw [if_pos h]
    exact toNat_ofNat_valid (Or.inl (by omega))
  · left
    rw [if_neg h]

/-- A word character never lower-cases to a non-word character such as a
space or a quote. -/
theorem chCI_word_nonword (c p : Char) (hc : isWordCh c = true)
    (hp : isWordCh p = false) (hpr : p.toNat < 65 ∨ 122 < p.toNat) :
    chCI c p = false := by
  cases hlow : chCI c p
  · rfl
  · exfalso
    have heq : c.toLower = p := by
      have := hlow
      unfold chCI at this
      exact eq_of_beq this
    rcases toLower_cases c with hid | ⟨h1, h2, h3⟩
    · rw [hid] at heq
      subst heq
      rw [hc] at hp
      exact Bool.true_eq_false ▸ hp
    · rw [heq] at h3
      omega

/-! ### Generic occurrence-decomposition lemmas -/

theorem preWith_append_cases {eqf : Char → Char → Bool} :
    ∀ {a p b : List Char}, preWith eqf p (a ++ b) = true →
    (p.length ≤ a.length ∧ preWith eqf p a = true) ∨
    (∃ p1 p2, p = p1 ++ p2 ∧ p2 ≠ [] ∧ p1.length = a.length ∧
      preWith eqf p1 a = true ∧ preWith eqf p2 b = true) := by
  intro a
  induction a with
  | nil =>
    intro p b h
    cases p with
    | nil => exact Or.inl ⟨le_rfl, rfl⟩
    | cons q ps => exact Or.inr ⟨[], q :: ps, rfl, by simp, rfl, rfl, h⟩
  | cons c a' ih =>
    intro p b h
    cases p with
    | nil => exact Or.inl ⟨by simp, rfl⟩
    | cons q ps =>
      simp only [List.cons_append, preWith, Bool.and_eq_true] at h
      rcases ih h.2 with ⟨hlen, hpre⟩ | ⟨p1, p2, rfl, hne, hlen, hp1, hp2⟩
      · exact Or.inl ⟨by simpa using Nat.succ_le_succ hlen,
          by simp [preWith, h.1, hpre]⟩
      · exact Or.inr ⟨q :: p1, p2, rfl, hne, by simpa using hlen,
          by simp [preWith, h.1, hp1], hp2⟩

theorem preWith_drop {eqf : Char → Char → Bool} :
    ∀ {x : List Char} {y s : List Char}, preWith eqf (x ++ y) s = true →
    preWith eqf y (s.drop x.length) = true := by
  intro x
  induction x with
  | nil => intro y s h; simpa using h
  | cons q x' ih =>
    intro y s h
    cases s with
    | nil => simp [preWith] at h
    | cons c cs =>
      simp only [List.cons_append, preWith, Bool.and_eq_true] at h
      simpa using ih h.2

theorem csPre_to_ciPre : ∀ {P s : List Char}, csPre P s = true →
    ciPre (P.map Char.toLower) s = true := by
  intro P
  induction P with
  | nil => intro s _; rfl
  | cons q ps ih =>
    intro s h
    cases s with
    | nil => simp [csPre, preWith] at h
    | cons c cs =>
      simp only [csPre, preWith, Bool.and_eq_true] at h
      have : c = q := by simpa using h.1
      subst this
      simp only [List.map_cons, ciPre, preWith, chCI, beq_self_eq_true, true_and]
      exact ih h.2

theorem anyTail_false_elem {f : List Char → Bool} :
    ∀ {s : List Char}, anyTail f s = false → ∀ t ∈ s.tails, f t = false := by
  intro s
  induction s with
  | nil =>
    intro h t ht
    simp at ht
    rw [ht]
    simpa [anyTail] using h
  | cons c cs ih =>
    intro h t ht
    simp only [anyTail, Bool.or_eq_false_iff] at h
    rw [List.tails_cons] at ht
    rcases List.mem_cons.mp ht with rfl | ht'
    · exact h.1
    · exact ih h.2 t ht'

theorem anyTail_of_elem {f : List Char → Bool} :
    ∀ {s t : List Char}, t ∈ s.tails → f t = true → anyTail f s = true := by
  intro s
  induction s with
  | nil =>
    intro t ht hf
    simp at ht
    subst ht
    simpa [anyTail] using hf
  | cons c cs ih =>
    intro t ht hf
    rw [List.tails_cons] at ht
    rcases List.mem_cons.mp ht with rfl | ht'
    · simp [anyTail, hf]
    · simp [anyTail, ih ht' hf]

theorem anyTail_false_append {f : List Char → Bool} :
    ∀ {x y : List Char}, (∀ a ∈ x.tails, a ≠ [] → f (a ++ y) = false) →
    anyTail f y = false → anyTail f (x ++ y) = false := by
  intro x
  induction x with
  | nil => intro y _ hy; simpa using hy
  | cons c x' ih =>
    intro y hx hy
    have h1 : f ((c :: x') ++ y) = false := hx (c :: x') (by rw [List.tails_cons]; simp) (by simp)
    have h2 := ih (fun a ha hne => hx a (by rw [List.tails_cons]; simp [ha]) hne) hy
    simp only [List.cons_append, anyTail, Bool.or_eq_false_iff]
    exact ⟨by simpa using h1, h2⟩

theorem countTail_false_append {f : List Char → Bool} :
    ∀ {x y : List Char}, (∀ a ∈ x.tails, a ≠ [] → f (a ++ y) = false) →
    countTail f (x ++ y) = countTail f y := by
  intro x
  induction x with
  | nil => intro y _; rfl
  | cons c x' ih =>
    intro y hx
    have h1 : f ((c :: x') ++ y) = false := hx (c :: x') (by rw [List.tails_cons]; simp) (by simp)
    have h2 := ih (fun a ha hne => hx a (by rw [List.tails_cons]; simp [ha]) hne)
    simp only [List.cons_append, countTail, List.append_eq] at h2 ⊢
    simp [show f (c :: (x' ++ y)) = false from by simpa using h1, h2]

/-- Occurrence exclusion over a quoted word followed by a concrete tail:
a case-insensitive pattern occurs nowhere in `'"' :: name ++ tail` when it
occurs nowhere inside `name`, cannot start at the opening quote, cannot
cross from `name` into `tail`, and occurs nowhere inside `tail`. -/
theorem hasSubCI_quoted (L name tail : List Char)
    (hin : ∀ a ∈ name.tails, ciPre L a = false)
    (hcross : ∀ p2 ∈ L.tails, p2 ≠ [] → ciPre p2 tail = false)
    (hq : ciPre L ('"' :: (name ++ tail)) = false)
    (htail : hasSubCI L tail = false) :
    hasSubCI L ('"' :: (name ++ tail)) = false := by
  show anyTail (ciPre L) (('"' :: name) ++ tail) = false
  apply anyTail_false_append _ htail
  intro a ha hne
  rw [List.tails_cons] at ha
  rcases List.mem_cons.mp ha with rfl | hmem
  · simpa using hq
  · cases hfire : ciPre L (a ++ tail)
    · rfl
    · exfalso
      rcases preWith_append_cases hfire with ⟨_, hpa⟩ | ⟨p1, p2, heq, hne2, _, _, hp2⟩
      · have h' : ciPre L a = true := hpa
        rw [hin a hmem] at h'
        exact Bool.false_ne_true h'
      · have hmem2 : p2 ∈ L.tails := by
          rw [List.mem_tails]
          exact ⟨p1, heq.symm⟩
        have h' : ciPre p2 tail = true := hp2
        rw [hcross p2 hmem2 hne2] at h'
        exact Bool.false_ne_true h'

/-- A pattern containing a space never occurs inside an all-word-character
string. -/
theorem ciPre_space_in_word {L1 L2 : List Char} {a : List Char}
    (hword : ∀ c ∈ a, isWordCh c = true) :
    ciPre (L1 ++ ' ' :: L2) a = false := by
  cases hfire : ciPre (L1 ++ ' ' :: L2) a
  · rfl
  · exfalso
    have hd : ciPre (' ' :: L2) (a.drop L1.length) = true := preWith_drop hfire
    cases hdrop : a.drop L1.length with
    | nil =>
      rw [hdrop] at hd
      simp [ciPre, preWith] at hd
    | cons c t =>
      rw [hdrop] at hd
      simp only [ciPre, preWith, Bool.and_eq_true] at hd
      have hcmem : c ∈ a := List.drop_subset _ _ (by rw [hdrop]; simp)
      have := chCI_word_nonword c ' ' (hword c hcmem) (by decide) (by left; decide)
      rw [this] at hd
      exact Bool.false_ne_true hd.1

/-! ### What each matcher needs from its input in order to fire -/

theorem csPre_subset : ∀ {p s : List Char}, csPre p s = true → ∀ c ∈ p, c ∈ s := by
  intro p
  induction p with
  | nil => intro s _ c hc; simp at hc
  | cons q ps ih =>
    intro s h c hc
    cases s with
    | nil => simp [csPre, preWith] at h
    | cons d ds =>
      simp only [csPre, preWith, Bool.and_eq_true] at h
      have hdq : d = q := by simpa using h.1
      rcases List.mem_cons.mp hc with rfl | hc'
      · simp [hdq]
      · exact List.mem_cons_of_mem d (ih h.2 c hc')

theorem scanThru_mem {stop : Char} {allowNl : Bool} :
    ∀ {s : List Char} {v}, scanThru stop allowNl s = some v → stop ∈ s := by
  intro s
  induction s with
  | nil => intro v h; simp [scanThru] at h
  | cons c cs ih =>
    intro v h
    unfold scanThru at h
    by_cases hc : (c == stop) = true
    · have : c = stop := by simpa using hc
      simp [this]
    · simp only [hc, if_false] at h
      by_cases hnl : (allowNl || !(c == chNl)) = true
      · rw [if_pos hnl] at h
        cases hrec : scanThru stop allowNl cs with
        | none => rw [hrec] at h; simp at h
        | some w => exact List.mem_cons_of_mem c (ih hrec)
      · rw [if_neg hnl] at h; simp at h

theorem scanLockTail_mem : ∀ {s : List Char} {v}, scanLockTail s = some v → ';' ∈ s := by
  intro s
  induction s with
  | nil => intro v h; simp [scanLockTail] at h
  | cons c cs ih =>
    intro v h
    unfold scanLockTail at h
    by_cases hc : (c == chBq && csPre ((" WRITE;").data) cs) = true
    · have : ';' ∈ cs :=
        csPre_subset (Bool.and_eq_true_iff.mp hc).2 ';' (by decide)
      exact List.mem_cons_of_mem c this
    · simp only [hc, if_false] at h
      by_cases hnl : (!(c == chNl)) = true
      · rw [if_pos hnl] at h
        cases hrec : scanLockTail cs with
        | none => rw [hrec] at h; simp at h
        | some w => exact List.mem_cons_of_mem c (ih hrec)
      · rw [if_neg hnl] at h; simp at h

theorem coreOfP_some {p : P} {repl : List Char → List Char} {s v}
    (h : coreOfP p repl s = some v) : ∃ m r, p s = some (m, r) := by
  unfold coreOfP at h
  cases hp : p s with
  | none => rw [hp] at h; simp at h
  | some w =>
    obtain ⟨m, r⟩ := w
    exact ⟨m, r, rfl⟩

theorem coreVersioned_mem {s v} (h : coreVersioned s = some v) : '/' ∈ s := by
  obtain ⟨m, r, hp⟩ := coreOfP_some h
  obtain ⟨m1, r1, m2, h1, _, _⟩ := pThen_some hp
  exact csPre_subset (pLitCS_some h1).1 '/' (by decide)

theorem coreSetOld_mem {s v} (h : coreSetOld s = some v) : '@' ∈ s := by
  obtain ⟨m, r, hp⟩ := coreOfP_some h
  obtain ⟨m1, r1, m2, h1, _, _⟩ := pThen_some hp
  exact csPre_subset (pLitCS_some h1).1 '@' (by decide)

theorem coreSetSaved_mem {s v} (h : coreSetSaved s = some v) : '@' ∈ s := by
  obtain ⟨m, r, hp⟩ := coreOfP_some h
  obtain ⟨m1, r1, m2, h1, _, _⟩ := pThen_some hp
  exact csPre_subset (pLitCS_some h1).1 '@' (by decide)

theorem coreUnlock_mem {s v} (h : coreUnlock s = some v) : ';' ∈ s := by
  obtain ⟨m, r, hp⟩ := coreOfP_some h
  exact csPre_subset (pLitCS_some hp).1 ';' (by decide)

theorem coreInsert_mem {s v} (h : coreInsert s = some v) : ';' ∈ s := by
  obtain ⟨m, r, hp⟩ := coreOfP_some h
  obtain ⟨m1, r1, m2, h1, h2, _⟩ := pThen_some hp
  have hsub : s = m1 ++ r1 := pLitCS_sound _ _ _ h1
  rw [hsub]
  exact List.mem_append_right m1 (scanThru_mem h2)

theorem coreLock_mem {s v} (h : coreLock s = some v) : ';' ∈ s := by
  obtain ⟨m, r, hp⟩ := coreOfP_some h
  obtain ⟨m1, r1, m2, h1, h2, _⟩ := pThen_some hp
  have hsub : s = m1 ++ r1 := pLitCS_sound _ _ _ h1
  rw [hsub]
  exact List.mem_append_right m1 (scanLockTail_mem h2)

theorem eqCore_mem {L : List Char} {X : Char → Bool} {s v}
    (h : coreOfP (pThen (pMany0 isWs) (pThen (pLitCI L) (pThen (pMany0 isWs)
        (pThen (pCh (· == '=')) (pThen (pMany0 isWs) (pMany1 X))))))
      (fun _ => []) s = some v) :
    '=' ∈ s := by
  obtain ⟨m, r, hp⟩ := coreOfP_some h
  obtain ⟨mA, rA, _, hA, hp2, _⟩ := pThen_some hp
  obtain ⟨mB, rB, _, hB, hp3, _⟩ := pThen_some hp2
  obtain ⟨mC, rC, _, hC, hp4, _⟩ := pThen_some hp3
  obtain ⟨mD, rD, _, hD, _, _⟩ := pThen_some hp4
  obtain ⟨c, hcr, hceq, _⟩ := pCh_some hD
  have hc : c = '=' := by simpa using hceq
  have h1 : '=' ∈ rC := by rw [hcr, hc]; simp
  have h2 : '=' ∈ rB := by rw [pMany0_sound _ _ _ hC]; exact List.mem_append_right _ h1
  have h3 : '=' ∈ rA := by rw [pLitCI_sound _ _ _ hB]; exact List.mem_append_right _ h2
  rw [pMany0_sound _ _ _ hA]
  exact List.mem_append_right _ h3

theorem pMany1_head {f : Char → Bool} {s : List Char} {v}
    (h : pMany1 f s = some v) : ∃ c t, s = c :: t ∧ f c = true := by
  obtain ⟨hm, _, hne⟩ := pMany1_some (by rw [h] : pMany1 f s = some (v.1, v.2))
  cases s with
  | nil => simp at hm; exact absurd hm hne
  | cons c t =>
    refine ⟨c, t, rfl, ?_⟩
    by_contra hc
    have hcf : f c = false := by
      cases hv : f c
      · rfl
      · exact absurd hv hc
    rw [List.takeWhile_cons, hcf] at hm
    simp at hm
    exact hne hm

theorem wsCore_head {REST : P} {s v}
    (h : coreOfP (pThen (pMany1 isWs) REST) (fun _ => []) s = some v) :
    ∃ c t, s = c :: t ∧ isWs c = true := by
  obtain ⟨m, r, hp⟩ := coreOfP_some h
  obtain ⟨m1, r1, m2, h1, _, _⟩ := pThen_some hp
  exact pMany1_head h1

/-- Generic extraction for the `match pLitCI L s with | some ... | none` cores. -/
theorem coreInt_fire {s v} (h : coreInt s = some v) : ciPre (("int").data) s = true := by
  unfold coreInt at h
  cases hp : pLitCI (("int").data) s with
  | none => rw [hp] at h; simp at h
  | some mr => exact (pLitCI_some (by rw [hp] : _ = some (mr.1, mr.2))).1

theorem coreDouble_fire {s v} (h : coreDouble s = some v) :
    ciPre (("double").data) s = true := by
  unfold coreDouble at h
  cases hp : pLitCI (("double").data) s with
  | none => rw [hp] at h; simp at h
  | some mr => exact (pLitCI_some (by rw [hp] : _ = some (mr.1, mr.2))).1

theorem coreDatetime_fire {s v} (h : coreDatetime s = some v) :
    ciPre (("datetime").data) s = true := by
  unfold coreDatetime at h
  cases hp : pLitCI (("datetime").data) s with
  | none => rw [hp] at h; simp at h
  | some mr => exact (pLitCI_some (by rw [hp] : _ = some (mr.1, mr.2))).1

theorem coreVarchar_fire {s v} (h : coreVarchar s = some v) :
    ciPre (("varchar").data) s = true := by
  unfold coreVarchar at h
  cases hp : pLitCI (("varchar").data) s with
  | none => rw [hp] at h; simp at h
  | some mr => exact (pLitCI_some (by rw [hp] : _ = some (mr.1, mr.2))).1

theorem coreLongtext_fire {s v} (h : coreLongtext s = some v) :
    ciPre (("longtext").data) s = true := by
  unfold coreLongtext at h
  cases hp : pLitCI (("longtext").data) s with
  | none => rw [hp] at h; simp at h
  | some mr => exact (pLitCI_some (by rw [hp] : _ = some (mr.1, mr.2))).1

theorem coreMediumtext_fire {s v} (h : coreMediumtext s = some v) :
    ciPre (("mediumtext").data) s = true := by
  unfold coreMediumtext at h
  cases hp : pLitCI (("mediumtext").data) s with
  | none => rw [hp] at h; simp at h
  | some mr => exact (pLitCI_some (by rw [hp] : _ = some (mr.1, mr.2))).1

theorem coreNow_fire {s v} (h : coreNow s = some v) :
    ciPre (("current_timestamp").data) s = true := by
  unfold coreNow at h
  cases hp : pLitCI (("current_timestamp").data) s with
  | none => rw [hp] at h; simp at h
  | some mr => exact (pLitCI_some (by rw [hp] : _ = some (mr.1, mr.2))).1

theorem coreTinyint1_fire {s v} (h : coreTinyint1 s = some v) :
    ciPre (("tinyint(1)").data) s = true := by
  obtain ⟨m, r, hp⟩ := coreOfP_some h
  exact (pLitCI_some hp).1

theorem coreTinyint_fire {s v} (h : coreTinyint s = some v) :
    ciPre (("tinyint").data) s = true := by
  obtain ⟨m, r, hp⟩ := coreOfP_some h
  obtain ⟨m1, r1, m2, h1, _, _⟩ := pThen_some hp
  exact (pLitCI_some h1).1

theorem coreOnUpdate_fire {s v} (h : coreOnUpdate s = some v) :
    ciPre (("timestamp").data) s = true := by
  unfold coreOnUpdate at h
  cases hp : pThen (pLitCI (("timestamp").data)) (pThen (pMany1 isWs)
      (pThen (pLitCI (("not").data)) (pThen (pMany1 isWs)
      (pThen (pLitCI (("null").data)) (pThen (pMany1 isWs)
      (pThen (pLitCI (("default").data)) (pThen (pMany1 isWs)
      (pLitCI (("current_timestamp").data))))))))) s with
  | none => rw [hp] at h; simp at h
  | some mr =>
    obtain ⟨m1, r1, m2, h1, _, _⟩ := pThen_some (by rw [hp] : _ = some (mr.1, mr.2))
    exact (pLitCI_some h1).1

theorem coreDisableKeys_fire {s v} (h : coreDisableKeys s = some v) :
    ciPre ((("alter table ").data) ++ ['"']) s = true := by
  obtain ⟨m, r, hp⟩ := coreOfP_some h
  obtain ⟨m1, r1, m2, h1, _, _⟩ := pThen_some hp
  exact (pLitCI_some h1).1

theorem coreEnableKeys_fire {s v} (h : coreEnableKeys s = some v) :
    ciPre ((("alter table ").data) ++ ['"']) s = true := by
  obtain ⟨m, r, hp⟩ := coreOfP_some h
  obtain ⟨m1, r1, m2, h1, _, _⟩ := pThen_some hp
  exact (pLitCI_some h1).1

theorem coreTrailingComma_fire {s v} (h : coreTrailingComma s = some v) :
    ∃ t, s = ',' :: t := by
  unfold coreTrailingComma at h
  cases s with
  | nil => simp at h
  | cons c rest =>
    by_cases hc : (c == ',') = true
    · exact ⟨rest, by rw [show c = ',' from by simpa using hc]⟩
    · simp only [hc, if_false] at h
      simp at h

theorem coreBlankLines_fire {s v} (h : coreBlankLines s = some v) :
    ∃ t, s = chNl :: t := by
  unfold coreBlankLines at h
  cases s with
  | nil => simp at h
  | cons c rest =>
    by_cases hc : (c == chNl) = true
    · exact ⟨rest, by rw [show c = chNl from by simpa using hc]⟩
    · simp only [hc, if_false] at h
      simp at h

theorem pMany1_exact {f : Char → Bool} {w : List Char} (hw : ∀ c ∈ w, f c = true)
    (hne : w ≠ []) {b : List Char} (hb : ∀ c, b.head? = some c → f c = false) :
    pMany1 f (w ++ b) = some (w, b) := by
  have hsplit := takeWhile_all_append hw hb
  unfold pMany1
  rw [hsplit.1, hsplit.2]
  cases w with
  | nil => exact absurd rfl hne
  | cons c cs => rfl

/-- Computation of the autoincrement-to-SERIAL matcher at the head of a
rendered column declaration. -/
theorem coreSerial_at (name ty : List Char)
    (hword : ∀ c ∈ name, isWordCh c = true) (hne : name ≠ [])
    (hWs : pMany1 isWs (' ' :: (ty ++ (" NOT NULL AUTO_INCREMENT").data))
         = some ([' '], ty ++ (" NOT NULL AUTO_INCREMENT").data))
    (hIT : pIntTypes (ty ++ (" NOT NULL AUTO_INCREMENT").data)
         = some (ty, (" NOT NULL AUTO_INCREMENT").data)) :
    coreSerial ('"' :: (name ++ '"' :: ' ' :: (ty ++ (" NOT NULL AUTO_INCREMENT").data)))
      = some (('"' :: name ++ ['"']) ++ (" SERIAL").data,
              ('"' :: name ++ ['"']) ++ ' ' :: (ty ++ (" NOT NULL AUTO_INCREMENT").data), []) := by
  have hm1 : pMany1 isWordCh (name ++ '"' :: ' ' :: (ty ++ (" NOT NULL AUTO_INCREMENT").data))
      = some (name, '"' :: ' ' :: (ty ++ (" NOT NULL AUTO_INCREMENT").data)) :=
    pMany1_exact hword hne (by intro c hc; simp at hc; rw [← hc]; rfl)
  unfold coreSerial
  rw [show pOpt (pCh (· == '"')) ('"' :: (name ++ '"' :: ' ' :: (ty ++ (" NOT NULL AUTO_INCREMENT").data)))
      = some (['"'], name ++ '"' :: ' ' :: (ty ++ (" NOT NULL AUTO_INCREMENT").data)) from rfl]
  dsimp only
  rw [hm1]
  dsimp only
  rw [show pOpt (pCh (· == '"')) ('"' :: ' ' :: (ty ++ (" NOT NULL AUTO_INCREMENT").data))
      = some (['"'], ' ' :: (ty ++ (" NOT NULL AUTO_INCREMENT").data)) from rfl]
  dsimp only
  rw [hWs]
  dsimp only
  rw [hIT]
  dsimp only
  rw [show (pThen (pMany1 isWs) (pThen (pLitCI (("not").data))
      (pThen (pMany1 isWs) (pThen (pLitCI (("null").data))
      (pThen (pMany1 isWs) (pLitCI (("auto_increment").data)))))))
        ((" NOT NULL AUTO_INCREMENT").data)
      = some ((" NOT NULL AUTO_INCREMENT").data, []) from rfl]
  dsimp only
  simp [List.append_assoc]

theorem preWith_and_mono {eqf : Char → Char → Bool} :
    ∀ {x y s : List Char}, preWith eqf (x ++ y) s = true → preWith eqf x s = true := by
  intro x
  induction x with
  | nil => intro y s _; rfl
  | cons q x' ih =>
    intro y s h
    cases s with
    | nil => simp [preWith] at h
    | cons c cs =>
      simp only [List.cons_append, preWith, Bool.and_eq_true] at h ⊢
      exact ⟨h.1, ih h.2⟩

theorem suffix_append_cases {t a b : List Char} (h : t <:+ a ++ b) :
    (∃ a', a' <:+ a ∧ a' ≠ [] ∧ t = a' ++ b) ∨ t <:+ b := by
  induction a with
  | nil => exact Or.inr (by simpa using h)
  | cons c a' ih =>
    rcases List.suffix_cons_iff.mp (by simpa using h) with rfl | h'
    · exact Or.inl ⟨c :: a', List.suffix_rfl, by simp, by simp⟩
    · rcases ih h' with ⟨a'', hs, hne, rfl⟩ | hb
      · exact Or.inl ⟨a'', hs.trans (List.suffix_cons c a'), hne, rfl⟩
      · exact Or.inr hb

theorem word_not_ws {c : Char} (h : isWordCh c = true) : isWs c = false := by
  cases hv : isWs c
  · rfl
  · exfalso
    have hv' : c = ' ' ∨ c = Char.ofNat 9 ∨ c = chNl ∨ c = Char.ofNat 13 ∨
        c = Char.ofNat 11 ∨ c = Char.ofNat 12 := by
      simpa [isWs, or_assoc] using hv
    rcases hv' with rfl | rfl | rfl | rfl | rfl | rfl <;> revert h <;> decide

theorem not_mem_of_word {c : Char} {name : List Char}
    (hword : ∀ d ∈ name, isWordCh d = true) (hc : isWordCh c = false) : c ∉ name := by
  intro hm
  rw [hword c hm] at hc
  exact Bool.false_ne_true hc.symm

theorem splitNl_no_nl : ∀ {s : List Char}, chNl ∉ s → splitNl s = [s] := by
  intro s
  induction s with
  | nil => intro _; rfl
  | cons c cs ih =>
    intro h
    have hc : (c == chNl) = false := by
      cases hv : c == chNl
      · rfl
      · exact absurd (by rw [show c = chNl from by simpa using hv] at h; exact h (by simp))
          (fun x => x)
    unfold splitNl
    rw [ih (fun hm => h (List.mem_cons_of_mem c hm))]
    simp [hc]

theorem map_backtick_id : ∀ {l : List Char}, (∀ c ∈ l, (c == chBq) = false) →
    l.map (fun c => if c == chBq then '"' else c) = l := by
  intro l
  induction l with
  | nil => intro _; rfl
  | cons c cs ih =>
    intro h
    simp only [List.map_cons, h c (by simp), if_false, List.cons.injEq]
    exact ⟨rfl, ih (fun d hd => h d (by simp [hd]))⟩

/-- Backtick translation of a rendered declaration. -/
theorem backtick_render (name T : List Char)
    (hword : ∀ c ∈ name, isWordCh c = true)
    (hT : ∀ c ∈ T, (c == chBq) = false) :
    backtickToQuote (chBq :: (name ++ chBq :: T)) = '"' :: (name ++ '"' :: T) := by
  unfold backtickToQuote
  simp only [List.map_cons, List.map_append, beq_self_eq_true, if_pos]
  rw [map_backtick_id (fun c hc => by
    cases hv : c == chBq
    · rfl
    · exfalso
      have : c = chBq := by simpa using hv
      subst this
      have := hword chBq hc
      revert this
      decide)]
  rw [map_backtick_id hT]

/-! ### Mid-level identity helpers -/

theorem reSub_id_of_char {ok : Option Char → Bool}
    {core : List Char → Option (List Char × List Char × List Char)} {c : Char} {s : List Char}
    (hok : ok none = true)
    (hchar : ∀ t v, core t = some v → c ∈ t)
    (habs : c ∉ s) :
    reSub (mkMatcher ok core) s = s := by
  apply reSub_id_dec _ _ _ hok
  intro suf hs _
  show mkMatcher ok core none suf = none
  unfold mkMatcher
  rw [hok, if_pos rfl]
  cases hfire : core suf with
  | none => rfl
  | some v =>
    exfalso
    exact habs (((List.mem_tails _ _).mp hs).subset (hchar _ _ hfire))

theorem reSub_id_of_ciPre {ok : Option Char → Bool}
    {core : List Char → Option (List Char × List Char × List Char)} (L : List Char)
    {s : List Char} (hok : ok none = true)
    (hfirelem : ∀ t v, core t = some v → ciPre L t = true)
    (hno : hasSubCI L s = false) :
    reSub (mkMatcher ok core) s = s := by
  apply reSub_id_dec _ _ _ hok
  intro suf hs _
  show mkMatcher ok core none suf = none
  unfold mkMatcher
  rw [hok, if_pos rfl]
  cases hfire : core suf with
  | none => rfl
  | some v =>
    exfalso
    have h1 := hfirelem _ _ hfire
    rw [anyTail_false_elem hno suf hs] at h1
    exact Bool.false_ne_true h1

theorem reSub_id_quoted_ws
    (core : List Char → Option (List Char × List Char × List Char)) (name T : List Char)
    (hword : ∀ c ∈ name, isWordCh c = true)
    (hfire : ∀ t v, core t = some v → ∃ c u, t = c :: u ∧ isWs c = true)
    (hT : ∀ t ∈ T.tails, t ≠ [] → core t = none) :
    reSub (mkMatcher (fun _ => true) core) ('"' :: (name ++ T)) = '"' :: (name ++ T) := by
  apply reSub_id_dec _ _ _ rfl
  intro suf hs hne
  show mkMatcher _ core none suf = none
  unfold mkMatcher
  rw [if_pos rfl]
  have hsuf : suf <:+ ('"' :: name) ++ T := by
    have := (List.mem_tails _ _).mp hs
    simpa using this
  rcases suffix_append_cases hsuf with ⟨a', ha', hne', rfl⟩ | hT'
  · cases hfire2 : core (a' ++ T) with
    | none => rfl
    | some v =>
      exfalso
      obtain ⟨c, u, hcu, hws⟩ := hfire _ _ hfire2
      cases a' with
      | nil => exact hne' rfl
      | cons c0 a'' =>
        have hc0 : c0 = c := by
          have := congrArg List.head? hcu
          simpa using this
        subst hc0
        have hc0mem : c0 ∈ '"' :: name := ha'.subset (by simp)
        rcases List.mem_cons.mp hc0mem with rfl | hmem
        · rw [show isWs '"' = false from by decide] at hws
          exact Bool.false_ne_true hws
        · rw [word_not_ws (hword c0 hmem)] at hws
          exact Bool.false_ne_true hws
  · exact hT suf ((List.mem_tails _ _).mpr hT') hne

theorem hin_of_hasSub {L name : List Char} (h : hasSubCI L name = false) :
    ∀ a ∈ name.tails, ciPre L a = false :=
  anyTail_false_elem h

theorem hin_of_drop {L1 L2 : List Char} {name : List Char} (h : hasSubCI L2 name = false) :
    ∀ a ∈ name.tails, ciPre (L1 ++ L2) a = false := by
  intro a ha
  cases hf : ciPre (L1 ++ L2) a
  · rfl
  · exfalso
    have hd : ciPre L2 (a.drop L1.length) = true := preWith_drop hf
    have hsuf : a.drop L1.length <:+ name :=
      (List.drop_suffix _ _).trans ((List.mem_tails _ _).mp ha)
    have h2 : hasSubCI L2 name = true := anyTail_of_elem ((List.mem_tails _ _).mpr hsuf) hd
    rw [h] at h2
    exact Bool.false_ne_true h2

theorem hin_of_drop_mono {L1 L2 L3 : List Char} {name : List Char}
    (h : hasSubCI L2 name = false) :
    ∀ a ∈ name.tails, ciPre (L1 ++ (L2 ++ L3)) a = false := by
  intro a ha
  cases hf : ciPre (L1 ++ (L2 ++ L3)) a
  · rfl
  · exfalso
    have hd : ciPre (L2 ++ L3) (a.drop L1.length) = true := preWith_drop hf
    have hd2 : ciPre L2 (a.drop L1.length) = true := preWith_and_mono hd
    have hsuf : a.drop L1.length <:+ name :=
      (List.drop_suffix _ _).trans ((List.mem_tails _ _).mp ha)
    have h2 : hasSubCI L2 name = true := anyTail_of_elem ((List.mem_tails _ _).mpr hsuf) hd2
    rw [h] at h2
    exact Bool.false_ne_true h2

theorem ciPre_head_false {p : Char} {ps X : List Char} (hp : chCI '"' p = false) :
    ciPre (p :: ps) ('"' :: X) = false := by
  simp [ciPre, preWith, hp]

theorem csPre_head_false {p : Char} {ps X : List Char} (hp : ('"' == p) = false) :
    csPre (p :: ps) ('"' :: X) = false := by
  simp [csPre, preWith, hp]

/-- Conversion of a rendered autoincrement column declaration, for a fixed
integer type keyword. -/
theorem ciPre_mem_space : ∀ {p a : List Char}, ' ' ∈ p → (∀ c ∈ a, isWordCh c = true) →
    ciPre p a = false := by
  intro p
  induction p with
  | nil => intro a h; simp at h
  | cons q ps ih =>
    intro a hsp hword
    cases a with
    | nil => rfl
    | cons b bs =>
      rcases List.mem_cons.mp hsp with rfl | hmem
      · have hb := hword b (by simp)
        have hf : chCI b ' ' = false := chCI_word_nonword b ' ' hb (by decide) (by left; decide)
        simp only [ciPre, preWith] at hf ⊢
        simp [hf]
      · have hf := ih hmem (fun c hc => hword c (List.mem_cons_of_mem b hc))
        simp only [ciPre, preWith] at hf ⊢
        simp [hf]

/-- Variant of the quoted-occurrence exclusion: a crossing occurrence is also
ruled out when every split of the pattern either puts a space in the part that
would have to match inside the all-word-character name, or fails on the tail. -/
theorem hasSubCI_quoted_ws (L name tail : List Char)
    (hword : ∀ c ∈ name, isWordCh c = true)
    (hin : ∀ a ∈ name.tails, ciPre L a = false)
    (hcross : ∀ n ∈ List.range L.length, ' ' ∈ L.take n ∨ ciPre (L.drop n) tail = false)
    (hq : ciPre L ('"' :: (name ++ tail)) = false)
    (htail : hasSubCI L tail = false) :
    hasSubCI L ('"' :: (name ++ tail)) = false := by
  show anyTail (ciPre L) (('"' :: name) ++ tail) = false
  apply anyTail_false_append _ htail
  intro a ha hne
  rw [List.tails_cons] at ha
  rcases List.mem_cons.mp ha with rfl | hmem
  · simpa using hq
  · cases hfire : ciPre L (a ++ tail)
    · rfl
    · exfalso
      rcases preWith_append_cases hfire with ⟨_, hpa⟩ | ⟨p1, p2, heq, hne2, hlen, hp1, hp2⟩
      · have hh : ciPre L a = true := hpa
        rw [hin a hmem] at hh
        exact Bool.false_ne_true hh
      · have hn : p1.length < L.length := by
          rw [heq, List.length_append]
          have := List.length_pos.mpr hne2
          omega
        have htk : L.take p1.length = p1 := by rw [heq, List.take_left]
        have hdr : L.drop p1.length = p2 := by rw [heq, List.drop_left]
        rcases hcross p1.length (List.mem_range.mpr hn) with hsp | hfl
        · rw [htk] at hsp
          have hworda : ∀ c ∈ a, isWordCh c = true :=
            fun c hc => hword c (((List.mem_tails a name).mp hmem).subset hc)
          have hf := ciPre_mem_space hsp hworda
          have hp1c : ciPre p1 a = true := hp1
          rw [hf] at hp1c
          exact Bool.false_ne_true hp1c
        · rw [hdr] at hfl
          have hp2c : ciPre p2 tail = true := hp2
          rw [hfl] at hp2c
          exact Bool.false_ne_true hp2c

theorem c2_main (name ty : List Char)
    (hne : name ≠ []) (hword : ∀ c ∈ name, isWordCh c = true)
    (hforb : ∀ L ∈ c2Forbidden, hasSubCI L name = false)
    (hWs : pMany1 isWs (' ' :: (ty ++ (" NOT NULL AUTO_INCREMENT").data))
         = some ([' '], ty ++ (" NOT NULL AUTO_INCREMENT").data))
    (hIT : pIntTypes (ty ++ (" NOT NULL AUTO_INCREMENT").data)
         = some (ty, (" NOT NULL AUTO_INCREMENT").data))
    (hSlash : '/' ∉ chBq :: ' ' :: (ty ++ (" NOT NULL AUTO_INCREMENT").data))
    (hAt : '@' ∉ chBq :: ' ' :: (ty ++ (" NOT NULL AUTO_INCREMENT").data))
    (hSemi : ';' ∉ chBq :: ' ' :: (ty ++ (" NOT NULL AUTO_INCREMENT").data))
    (hTbq : ∀ c ∈ ' ' :: (ty ++ (" NOT NULL AUTO_INCREMENT").data), (c == chBq) = false)
    (hEqT : '=' ∉ '"' :: ' ' :: (ty ++ (" NOT NULL AUTO_INCREMENT").data))
    (hCsT : ∀ t ∈ ('"' :: ' ' :: (ty ++ (" NOT NULL AUTO_INCREMENT").data)).tails,
      t ≠ [] → coreCharacterSet t = none)
    (hCwT : ∀ t ∈ ('"' :: ' ' :: (ty ++ (" NOT NULL AUTO_INCREMENT").data)).tails,
      t ≠ [] → coreCollateWs t = none) :
    convert_mysql_to_postgres (renderAutoCol name ty) = serialResult name := by
  have hInt := hforb (("int").data) (by simp [c2Forbidden])
  have hSerial := hforb (("serial").data) (by simp [c2Forbidden])
  have hAuto := hforb (("auto_increment").data) (by simp [c2Forbidden])
  have hDouble := hforb (("double").data) (by simp [c2Forbidden])
  have hDatetime := hforb (("datetime").data) (by simp [c2Forbidden])
  have hVarchar := hforb (("varchar").data) (by simp [c2Forbidden])
  have hLongtext := hforb (("longtext").data) (by simp [c2Forbidden])
  have hMediumtext := hforb (("mediumtext").data) (by simp [c2Forbidden])
  have hTimestamp := hforb (("timestamp").data) (by simp [c2Forbidden])
  have memRaw : ∀ c : Char, c ∈ chBq :: (name ++ chBq :: ' ' :: (ty ++ (" NOT NULL AUTO_INCREMENT").data)) →
      c = chBq ∨ c ∈ name ∨ c ∈ chBq :: ' ' :: (ty ++ (" NOT NULL AUTO_INCREMENT").data) := by
    intro c hc
    rcases List.mem_cons.mp hc with h | h
    · exact Or.inl h
    · rcases List.mem_append.mp h with h' | h'
      · exact Or.inr (Or.inl h')
      · exact Or.inr (Or.inr h')
  have rawAbs : ∀ c : Char, isWordCh c = false → (c = chBq → False) →
      c ∉ chBq :: ' ' :: (ty ++ (" NOT NULL AUTO_INCREMENT").data) →
      c ∉ chBq :: (name ++ chBq :: ' ' :: (ty ++ (" NOT NULL AUTO_INCREMENT").data)) := by
    intro c hw hbq htail hc
    rcases memRaw c hc with h | h | h
    · exact hbq h
    · exact not_mem_of_word hword hw h
    · exact htail h
  have eA1 : reSub mVersioned (chBq :: (name ++ chBq :: ' ' :: (ty ++ (" NOT NULL AUTO_INCREMENT").data)))
      = chBq :: (name ++ chBq :: ' ' :: (ty ++ (" NOT NULL AUTO_INCREMENT").data)) :=
    reSub_id_of_char rfl (fun _ _ h => coreVersioned_mem h)
      (rawAbs '/' (by decide) (by decide) hSlash)
  have eA2 : reSub mSetOld (chBq :: (name ++ chBq :: ' ' :: (ty ++ (" NOT NULL AUTO_INCREMENT").data)))
      = chBq :: (name ++ chBq :: ' ' :: (ty ++ (" NOT NULL AUTO_INCREMENT").data)) :=
    reSub_id_of_char rfl (fun _ _ h => coreSetOld_mem h)
      (rawAbs '@' (by decide) (by decide) hAt)
  have eA3 : reSub mSetSaved (chBq :: (name ++ chBq :: ' ' :: (ty ++ (" NOT NULL AUTO_INCREMENT").data)))
      = chBq :: (name ++ chBq :: ' ' :: (ty ++ (" NOT NULL AUTO_INCREMENT").data)) :=
    reSub_id_of_char rfl (fun _ _ h => coreSetSaved_mem h)
      (rawAbs '@' (by decide) (by decide) hAt)
  have eA4 : reSub mInsert (chBq :: (name ++ chBq :: ' ' :: (ty ++ (" NOT NULL AUTO_INCREMENT").data)))
      = chBq :: (name ++ chBq :: ' ' :: (ty ++ (" NOT NULL AUTO_INCREMENT").data)) :=
    reSub_id_of_char rfl (fun _ _ h => coreInsert_mem h)
      (rawAbs ';' (by decide) (by decide) hSemi)
  have eA5 : reSub mLock (chBq :: (name ++ chBq :: ' ' :: (ty ++ (" NOT NULL AUTO_INCREMENT").data)))
      = chBq :: (name ++ chBq :: ' ' :: (ty ++ (" NOT NULL AUTO_INCREMENT").data)) :=
    reSub_id_of_char rfl (fun _ _ h => coreLock_mem h)
      (rawAbs ';' (by decide) (by decide) hSemi)
  have eA6 : reSub mUnlock (chBq :: (name ++ chBq :: ' ' :: (ty ++ (" NOT NULL AUTO_INCREMENT").data)))
      = chBq :: (name ++ chBq :: ' ' :: (ty ++ (" NOT NULL AUTO_INCREMENT").data)) :=
    reSub_id_of_char rfl (fun _ _ h => coreUnlock_mem h)
      (rawAbs ';' (by decide) (by decide) hSemi)
  have eB : backtickToQuote (chBq :: (name ++ chBq :: ' ' :: (ty ++ (" NOT NULL AUTO_INCREMENT").data)))
      = '"' :: (name ++ '"' :: ' ' :: (ty ++ (" NOT NULL AUTO_INCREMENT").data)) :=
    backtick_render name (' ' :: (ty ++ (" NOT NULL AUTO_INCREMENT").data)) hword hTbq
  have memTextB : ∀ c : Char, c ∈ '"' :: (name ++ '"' :: ' ' :: (ty ++ (" NOT NULL AUTO_INCREMENT").data)) →
      c = '"' ∨ c ∈ name ∨ c ∈ '"' :: ' ' :: (ty ++ (" NOT NULL AUTO_INCREMENT").data) := by
    intro c hc
    rcases List.mem_cons.mp hc with h | h
    · exact Or.inl h
    · rcases List.mem_append.mp h with h' | h'
      · exact Or.inr (Or.inl h')
      · exact Or.inr (Or.inr h')
  have hEqB : '=' ∉ '"' :: (name ++ '"' :: ' ' :: (ty ++ (" NOT NULL AUTO_INCREMENT").data)) := by
    intro hc
    rcases memTextB '=' hc with h | h | h
    · exact absurd h (by decide)
    · exact not_mem_of_word hword (by decide) h
    · exact hEqT h
  have eC1 : reSub mEngine ('"' :: (name ++ '"' :: ' ' :: (ty ++ (" NOT NULL AUTO_INCREMENT").data)))
      = '"' :: (name ++ '"' :: ' ' :: (ty ++ (" NOT NULL AUTO_INCREMENT").data)) :=
    reSub_id_of_char rfl (fun _ _ h => eqCore_mem h) hEqB
  have eC2 : reSub mDefaultCharset ('"' :: (name ++ '"' :: ' ' :: (ty ++ (" NOT NULL AUTO_INCREMENT").data)))
      = '"' :: (name ++ '"' :: ' ' :: (ty ++ (" NOT NULL AUTO_INCREMENT").data)) :=
    reSub_id_of_char rfl (fun _ _ h => eqCore_mem h) hEqB
  have eC3 : reSub mCollateEq ('"' :: (name ++ '"' :: ' ' :: (ty ++ (" NOT NULL AUTO_INCREMENT").data)))
      = '"' :: (name ++ '"' :: ' ' :: (ty ++ (" NOT NULL AUTO_INCREMENT").data)) :=
    reSub_id_of_char rfl (fun _ _ h => eqCore_mem h) hEqB
  have eC6 : reSub mAutoIncEq ('"' :: (name ++ '"' :: ' ' :: (ty ++ (" NOT NULL AUTO_INCREMENT").data)))
      = '"' :: (name ++ '"' :: ' ' :: (ty ++ (" NOT NULL AUTO_INCREMENT").data)) :=
    reSub_id_of_char rfl (fun _ _ h => eqCore_mem h) hEqB
  have eC4 : reSub mCharacterSet ('"' :: (name ++ '"' :: ' ' :: (ty ++ (" NOT NULL AUTO_INCREMENT").data)))
      = '"' :: (name ++ '"' :: ' ' :: (ty ++ (" NOT NULL AUTO_INCREMENT").data)) :=
    reSub_id_quoted_ws coreCharacterSet name ('"' :: ' ' :: (ty ++ (" NOT NULL AUTO_INCREMENT").data))
      hword (fun _ _ h => wsCore_head h) hCsT
  have eC5 : reSub mCollateWs ('"' :: (name ++ '"' :: ' ' :: (ty ++ (" NOT NULL AUTO_INCREMENT").data)))
      = '"' :: (name ++ '"' :: ' ' :: (ty ++ (" NOT NULL AUTO_INCREMENT").data)) :=
    reSub_id_quoted_ws coreCollateWs name ('"' :: ' ' :: (ty ++ (" NOT NULL AUTO_INCREMENT").data))
      hword (fun _ _ h => wsCore_head h) hCwT
  have eS : reSub mSerial ('"' :: (name ++ '"' :: ' ' :: (ty ++ (" NOT NULL AUTO_INCREMENT").data)))
      = serialResult name := by
    have hm := coreSerial_at name ty hword hne hWs hIT
    unfold mSerial
    rw [reSub_head_match _ hm (by simp)]
    unfold serialResult
    simp [reSub, reSubFuel, List.append_assoc]
  have memSR : ∀ c : Char, c ∈ serialResult name →
      c = '"' ∨ c ∈ name ∨ c ∈ '"' :: (" SERIAL").data := by
    intro c hc
    unfold serialResult at hc
    rcases List.mem_cons.mp hc with h | h
    · exact Or.inl h
    · rcases List.mem_append.mp h with h' | h'
      · exact Or.inr (Or.inl h')
      · exact Or.inr (Or.inr h')
  have srAbs : ∀ c : Char, isWordCh c = false →
      (c ∈ '"' :: (" SERIAL").data → False) → c ∉ serialResult name := by
    intro c hw htl hc
    rcases memSR c hc with h | h | h
    · exact htl (by rw [h]; simp)
    · exact not_mem_of_word hword hw h
    · exact htl h
  have hNoInt : hasSubCI (("int").data) (serialResult name) = false := by
    unfold serialResult
    exact hasSubCI_quoted (("int").data) name ('"' :: (" SERIAL").data)
      (hin_of_hasSub hInt) (by decide) (ciPre_head_false (by decide)) (by decide)
  have hNoDouble : hasSubCI (("double").data) (serialResult name) = false := by
    unfold serialResult
    exact hasSubCI_quoted (("double").data) name ('"' :: (" SERIAL").data)
      (hin_of_hasSub hDouble) (by decide) (ciPre_head_false (by decide)) (by decide)
  have hNoT1 : hasSubCI (("tinyint(1)").data) (serialResult name) = false := by
    unfold serialResult
    exact hasSubCI_quoted (("tinyint(1)").data) name ('"' :: (" SERIAL").data)
      (@hin_of_drop_mono (("tiny").data) (("int").data) (("(1)").data) name hInt)
      (by decide) (ciPre_head_false (by decide)) (by decide)
  have hNoTi : hasSubCI (("tinyint").data) (serialResult name) = false := by
    unfold serialResult
    exact hasSubCI_quoted (("tinyint").data) name ('"' :: (" SERIAL").data)
      (@hin_of_drop (("tiny").data) (("int").data) name hInt)
      (by decide) (ciPre_head_false (by decide)) (by decide)
  have hNoDt : hasSubCI (("datetime").data) (serialResult name) = false := by
    unfold serialResult
    exact hasSubCI_quoted (("datetime").data) name ('"' :: (" SERIAL").data)
      (hin_of_hasSub hDatetime) (by decide) (ciPre_head_false (by decide)) (by decide)
  have hNoVc : hasSubCI (("varchar").data) (serialResult name) = false := by
    unfold serialResult
    exact hasSubCI_quoted (("varchar").data) name ('"' :: (" SERIAL").data)
      (hin_of_hasSub hVarchar) (by decide) (ciPre_head_false (by decide)) (by decide)
  have hNoLt : hasSubCI (("longtext").data) (serialResult name) = false := by
    unfold serialResult
    exact hasSubCI_quoted (("longtext").data) name ('"' :: (" SERIAL").data)
      (hin_of_hasSub hLongtext) (by decide) (ciPre_head_false (by decide)) (by decide)
  have hNoMt : hasSubCI (("mediumtext").data) (serialResult name) = false := by
    unfold serialResult
    exact hasSubCI_quoted (("mediumtext").data) name ('"' :: (" SERIAL").data)
      (hin_of_hasSub hMediumtext) (by decide) (ciPre_head_false (by decide)) (by decide)
  have hNoTs : hasSubCI (("timestamp").data) (serialResult name) = false := by
    unfold serialResult
    exact hasSubCI_quoted (("timestamp").data) name ('"' :: (" SERIAL").data)
      (hin_of_hasSub hTimestamp) (by decide) (ciPre_head_false (by decide)) (by decide)
  have hNoCt : hasSubCI (("current_timestamp").data) (serialResult name) = false := by
    unfold serialResult
    exact hasSubCI_quoted (("current_timestamp").data) name ('"' :: (" SERIAL").data)
      (@hin_of_drop (("current_").data) (("timestamp").data) name hTimestamp)
      (by decide) (ciPre_head_false (by decide)) (by decide)
  have eF1 : reSub mInt (serialResult name) = serialResult name :=
    reSub_id_of_ciPre (("int").data) rfl (fun _ _ h => coreInt_fire h) hNoInt
  have eF2 : reSub mDouble (serialResult name) = serialResult name :=
    reSub_id_of_ciPre (("double").data) rfl (fun _ _ h => coreDouble_fire h) hNoDouble
  have eF3 : reSub mTinyint1 (serialResult name) = serialResult name :=
    reSub_id_of_ciPre (("tinyint(1)").data) rfl (fun _ _ h => coreTinyint1_fire h) hNoT1
  have eF4 : reSub mTinyint (serialResult name) = serialResult name :=
    reSub_id_of_ciPre (("tinyint").data) rfl (fun _ _ h => coreTinyint_fire h) hNoTi
  have eF5 : reSub mDatetime (serialResult name) = serialResult name :=
    reSub_id_of_ciPre (("datetime").data) rfl (fun _ _ h => coreDatetime_fire h) hNoDt
  have eF6 : reSub mVarchar (serialResult name) = serialResult name :=
    reSub_id_of_ciPre (("varchar").data) rfl (fun _ _ h => coreVarchar_fire h) hNoVc
  have eF7 : reSub mLongtext (serialResult name) = serialResult name :=
    reSub_id_of_ciPre (("longtext").data) rfl (fun _ _ h => coreLongtext_fire h) hNoLt
  have eF8 : reSub mMediumtext (serialResult name) = serialResult name :=
    reSub_id_of_ciPre (("mediumtext").data) rfl (fun _ _ h => coreMediumtext_fire h) hNoMt
  have eF9 : reSub mOnUpdate (serialResult name) = serialResult name :=
    reSub_id_of_ciPre (("timestamp").data) rfl (fun _ _ h => coreOnUpdate_fire h) hNoTs
  have eF10 : reSub mNow (serialResult name) = serialResult name :=
    reSub_id_of_ciPre (("current_timestamp").data) rfl (fun _ _ h => coreNow_fire h) hNoCt
  have hNl : chNl ∉ serialResult name := srAbs chNl (by decide) (by decide)
  have hCm : ',' ∉ serialResult name := srAbs ',' (by decide) (by decide)
  have hCT : hasSubCI (("create table").data) (serialResult name) = false := by
    unfold serialResult
    exact hasSubCI_quoted (("create table").data) name ('"' :: (" SERIAL").data)
      (fun a ha => @ciPre_space_in_word (("create").data) (("table").data) a
        (fun c hc => hword c (((List.mem_tails a name).mp ha).subset hc)))
      (by decide) (ciPre_head_false (by decide)) (by decide)
  have hstep : scanLineStep false none (serialResult name) = (false, none, true, none) := by
    simp [scanLineStep, hCT]
  have hscan : scanLines false none [serialResult name] = ([serialResult name], []) := by
    simp [scanLines, hstep]
  have hComma : reSub mTrailingComma (serialResult name) = serialResult name :=
    reSub_id_of_char rfl
      (fun t _ h => by
        obtain ⟨u, hu⟩ := coreTrailingComma_fire h
        subst hu
        exact List.mem_cons_self _ _) hCm
  have hNoDis : hasSubCI ((("alter table ").data) ++ ['"']) (serialResult name) = false := by
    unfold serialResult
    exact hasSubCI_quoted_ws ((("alter table ").data) ++ ['"']) name ('"' :: (" SERIAL").data)
      hword
      (fun a ha => @ciPre_space_in_word (("alter").data) ((("table ").data) ++ ['"']) a
        (fun c hc => hword c (((List.mem_tails a name).mp ha).subset hc)))
      (by decide) (ciPre_head_false (by decide)) (by decide)
  have eDis : reSub mDisableKeys (serialResult name) = serialResult name :=
    reSub_id_of_ciPre ((("alter table ").data) ++ ['"']) rfl
      (fun _ _ h => coreDisableKeys_fire h) hNoDis
  have eEn : reSub mEnableKeys (serialResult name) = serialResult name :=
    reSub_id_of_ciPre ((("alter table ").data) ++ ['"']) rfl
      (fun _ _ h => coreEnableKeys_fire h) hNoDis
  have eBlank : reSub mBlankLines (serialResult name) = serialResult name :=
    reSub_id_of_char rfl
      (fun t _ h => by
        obtain ⟨u, hu⟩ := coreBlankLines_fire h
        subst hu
        exact List.mem_cons_self _ _) hNl
  have hAppNil : ∀ s : List Char, appendForeignKeys s [] = s := fun _ => rfl
  have hDp : deferralPass (serialResult name) = serialResult name := by
    simp only [deferralPass, splitNl_no_nl hNl, hscan, joinNl, hComma, hAppNil,
      eDis, eEn, eBlank]
  have hRW : rewriteStage (chBq :: (name ++ chBq :: ' ' :: (ty ++ (" NOT NULL AUTO_INCREMENT").data)))
      = serialResult name := by
    simp only [rewriteStage, eA1, eA2, eA3, eA4, eA5, eA6, eB, eC1, eC2, eC3, eC4,
      eC5, eC6, eS, eF1, eF2, eF3, eF4, eF5, eF6, eF7, eF8, eF9, eF10]
  show deferralPass (rewriteStage (chBq :: (name ++ chBq :: ' ' :: (ty ++ (" NOT NULL AUTO_INCREMENT").data)))) = serialResult name
  rw [hRW, hDp]


/-- C2: for a column declaration built from a backquoted word-character column
name and a sized integer type (`int`, `bigint` or `smallint`) directly followed
by ` NOT NULL AUTO_INCREMENT`, where the name contains none of the rewrite
patterns as a case-insensitive substring, the converter turns the declaration
into the quoted name followed by ` SERIAL`; the output contains the literal
`SERIAL` exactly once and the word `AUTO_INCREMENT` nowhere (case-insensitive). -/
theorem c2_theorem (name ty : List Char)
    (hne : name ≠ []) (hword : ∀ c ∈ name, isWordCh c = true)
    (hforb : ∀ L ∈ c2Forbidden, hasSubCI L name = false)
    (hty : ty = ("int").data ∨ ty = ("bigint").data ∨ ty = ("smallint").data) :
    convert_mysql_to_postgres (renderAutoCol name ty) = serialResult name ∧
    countSub (("SERIAL").data) (serialResult name) = 1 ∧
    hasSubCI (("auto_increment").data) (serialResult name) = false := by
  have hSerial := hforb (("serial").data) (by simp [c2Forbidden])
  have hAuto := hforb (("auto_increment").data) (by simp [c2Forbidden])
  refine ⟨?_, ?_, ?_⟩
  · rcases hty with rfl | rfl | rfl
    · exact c2_main name _ hne hword hforb (by decide) (by decide) (by decide) (by decide)
        (by decide) (by decide) (by decide) (by decide) (by decide)
    · exact c2_main name _ hne hword hforb (by decide) (by decide) (by decide) (by decide)
        (by decide) (by decide) (by decide) (by decide) (by decide)
    · exact c2_main name _ hne hword hforb (by decide) (by decide) (by decide) (by decide)
        (by decide) (by decide) (by decide) (by decide) (by decide)
  · have hx : ∀ a ∈ ('"' :: name).tails, a ≠ [] →
        csPre (("SERIAL").data) (a ++ ('"' :: (" SERIAL").data)) = false := by
      intro a ha hne2
      rw [List.tails_cons] at ha
      rcases List.mem_cons.mp ha with rfl | hmem
      · show csPre (("SERIAL").data) ('"' :: (name ++ ('"' :: (" SERIAL").data))) = false
        exact csPre_head_false (by decide)
      · cases hfire : csPre (("SERIAL").data) (a ++ ('"' :: (" SERIAL").data))
        · rfl
        · exfalso
          have hfire2 : preWith (fun c p => c == p) (("SERIAL").data)
              (a ++ ('"' :: (" SERIAL").data)) = true := hfire
          rcases preWith_append_cases hfire2 with ⟨_, hpa⟩ | ⟨p1, p2, heq, hne3, _, _, hp2⟩
          · have hpa2 : csPre (("SERIAL").data) a = true := hpa
            have h1 : ciPre ((("SERIAL").data).map Char.toLower) a = true :=
              csPre_to_ciPre hpa2
            rw [show (("SERIAL").data).map Char.toLower = ("serial").data from by decide] at h1
            rw [hin_of_hasSub hSerial a hmem] at h1
            exact Bool.false_ne_true h1
          · have hmem2 : p2 ∈ (("SERIAL").data).tails := (List.mem_tails _ _).mpr ⟨p1, heq.symm⟩
            have hp2c : csPre p2 ('"' :: (" SERIAL").data) = true := hp2
            have hall : ∀ p2 ∈ (("SERIAL").data).tails, p2 ≠ [] →
                csPre p2 ('"' :: (" SERIAL").data) = false := by decide
            rw [hall p2 hmem2 hne3] at hp2c
            exact Bool.false_ne_true hp2c
    show countTail (csPre (("SERIAL").data)) (('"' :: name) ++ ('"' :: (" SERIAL").data)) = 1
    rw [countTail_false_append hx]
    decide
  · show hasSubCI (("auto_increment").data) ('"' :: (name ++ '"' :: (" SERIAL").data)) = false
    exact hasSubCI_quoted (("auto_increment").data) name ('"' :: (" SERIAL").data)
      (hin_of_hasSub hAuto) (by decide) (ciPre_head_false (by decide)) (by decide)

/-- Witness for C2 at the concrete column `` `user_id` int NOT NULL AUTO_INCREMENT ``. -/
theorem c2_witness :
    convert_mysql_to_postgres (renderAutoCol (("user_id").data) (("int").data))
      = serialResult (("user_id").data) ∧
    countSub (("SERIAL").data) (serialResult (("user_id").data)) = 1 ∧
    hasSubCI (("auto_increment").data) (serialResult (("user_id").data)) = false :=
  c2_theorem (("user_id").data) (("int").data) (by decide) (by decide) (by decide)
    (Or.inl rfl)
